import Mathlib

/-!
# Verification of the Markdown → Google Docs request generator

Shallow embedding of `src/nodes/MarkdownToGoogleDocs/markdown-processor.ts`
(class `MarkdownProcessor`), plus — in namespace `V2` — the line-based list
correction pass of the cheerio revision of the same class (src/unnamed/part_009,
middle document), and a spec-modelled Page Break Injector.

Modelling conventions:
* The DOM produced by `marked` + `JSDOM` is modelled by the inductive `HNode`
  (element nodes with upper-case `nodeName` and an attribute association list,
  and text nodes).  The external Markdown→HTML parse itself is outside the
  embedding; conversion functions take the parsed node list.
* JS `number` indices are modelled as `Int`.  JS string `.length` counts
  UTF-16 code units; Lean `String.length` counts scalar values.  The two agree
  on every string this code manipulates in the settled claims (all characters
  involved, including the checkbox glyphs ✅/❌, are in the BMP).
* Nested style payloads (colors, magnitudes, fonts) do not participate in any
  claim; each `updateTextStyle` / `updateParagraphStyle` operation records the
  `fields` discriminator string exactly as the source builds it, which
  separates all payload shapes the source can produce.
* The `objectSize` payload of `insertInlineImage` (built by
  `parseImageDimension`) is recorded as the raw truthy `width` / `height`
  attribute strings; no claim references image dimensions.
-/

namespace MdToDocs

/-- Source `FormatRange` of the source: `{start, end, type, url?}`, offsets relative
to the plain text of one run.  `stop` models the reserved word `end`. -/
structure FormatRange where
  start : Int
  stop : Int
  type : String
  url : Option String := none
deriving Repr, DecidableEq

/-- Source `GoogleDocsRequest` (types.ts), restricted to the variants the processor
emits.  Ranges are `(startIndex, endIndex)`; `fields` is the API field mask
string the source attaches to each style request. -/
inductive GRequest where
  | insertText (index : Int) (text : String)
  | updateTextStyle (startIndex endIndex : Int) (fields : String)
  | updateParagraphStyle (startIndex endIndex : Int) (fields : String)
  | createParagraphBullets (startIndex endIndex : Int) (bulletPreset : String)
  | deleteParagraphBullets (startIndex endIndex : Int)
  | insertTable (index : Int) (rows columns : Nat)
  | insertInlineImage (index : Int) (uri : String) (width height : Option String)
  | insertPageBreak (index : Int)
deriving Repr, DecidableEq

/-- A JSDOM node: element (`nodeType 1`, upper-case `nodeName`, attributes,
child nodes) or text (`nodeType 3`). -/
inductive HNode where
  | text (content : String)
  | elem (name : String) (attrs : List (String × String)) (children : List HNode)
deriving Repr

namespace HNode

/-- Source `nodeName`: the tag name for elements, `"#text"` for text nodes. -/
def nodeName : HNode → String
  | .text _ => "#text"
  | .elem n _ _ => n

/-- Source `childNodes` (empty for text nodes). -/
def childNodes : HNode → List HNode
  | .text _ => []
  | .elem _ _ cs => cs

/-- Source `getAttribute`: `none` models JS `null`. -/
def getAttr : HNode → String → Option String
  | .text _, _ => none
  | .elem _ attrs _, key => (attrs.find? (fun a => a.1 == key)).map (·.2)

/-- Source `textContent`: concatenation of all descendant text. -/
def textContent : HNode → String
  | .text s => s
  | .elem _ _ cs => textContentList cs
where
  /-- Source `textContent` of a node list. -/
  textContentList : List HNode → String
    | [] => ""
    | c :: rest => textContent c ++ textContentList rest
termination_by structural n => n

/-- Whether the node is an element with the given tag name. -/
def isElemNamed (tag : String) : HNode → Bool
  | .text _ => false
  | .elem n _ _ => n == tag

/-- Source `querySelector(sel) !== null` for a predicate over nodes: does any strict
descendant satisfy it?  (CSS selectors match elements of the subtree,
excluding the element itself.) -/
def hasDescendant (p : HNode → Bool) : HNode → Bool
  | .text _ => false
  | .elem _ _ cs => hasDescendantList p cs
where
  /-- descendant search through a node list. -/
  hasDescendantList (p : HNode → Bool) : List HNode → Bool
    | [] => false
    | c :: rest => p c || hasDescendant p c || hasDescendantList p rest
termination_by structural n => n

/-- Source `querySelector(sel)` for a predicate: first strict descendant in document
(pre-)order satisfying it. -/
def firstDescendant (p : HNode → Bool) : HNode → Option HNode
  | .text _ => none
  | .elem _ _ cs => firstDescendantList p cs
where
  /-- first match in a node list, pre-order. -/
  firstDescendantList (p : HNode → Bool) : List HNode → Option HNode
    | [] => none
    | c :: rest =>
      if p c then some c
      else match firstDescendant p c with
        | some r => some r
        | none => firstDescendantList p rest
termination_by structural n => n

/-- Source `querySelectorAll(sel)` for a predicate: all strict descendants in
document (pre-)order. -/
def allDescendants (p : HNode → Bool) : HNode → List HNode
  | .text _ => []
  | .elem _ _ cs => allDescendantsList p cs
where
  /-- all matches in a node list, pre-order. -/
  allDescendantsList (p : HNode → Bool) : List HNode → List HNode
    | [] => []
    | c :: rest =>
      (if p c then [c] else []) ++ allDescendants p c ++ allDescendantsList p rest
termination_by structural n => n

end HNode

/-- JS `String.prototype.trimStart`: strip leading whitespace.  (JS strips
the full Unicode whitespace class; every string this code trims only carries
ASCII whitespace, where the two agree.) -/
def jsTrimLeft (s : String) : String :=
  ⟨s.data.dropWhile Char.isWhitespace⟩

/-- JS `String.prototype.trim`: strip leading and trailing whitespace. -/
def jsTrim (s : String) : String :=
  ⟨((s.data.dropWhile Char.isWhitespace).reverse.dropWhile Char.isWhitespace).reverse⟩

/-- The `input[type="checkbox"]` selector. -/
def isCheckboxInput (n : HNode) : Bool :=
  n.isElemNamed "INPUT" && n.getAttr "type" == some "checkbox"

/-- Source `getFormatType` (markdown-processor.ts): map a tag name to a format kind. -/
def getFormatType (nodeName : String) : Option String :=
  match nodeName with
  | "STRONG" => some "bold"
  | "B" => some "bold"
  | "EM" => some "italic"
  | "I" => some "italic"
  | "CODE" => some "code"
  | "A" => some "link"
  | _ => none

/-- Source `createFormatRequest`: build one `updateTextStyle` request for a
`FormatRange` anchored at `insertIndex`; `none` models the `null` returns
(unknown type, or a link without a URL). -/
def createFormatRequest (range : FormatRange) (insertIndex : Int) : Option GRequest :=
  let req (fields : String) : Option GRequest :=
    some (.updateTextStyle (insertIndex + range.start) (insertIndex + range.stop) fields)
  match range.type with
  | "bold" => req "bold"
  | "italic" => req "italic"
  | "code" => req "weightedFontFamily,backgroundColor"
  | "link" => match range.url with
      | some _ => req "link"
      | none => none
  | _ => none

mutual
/-- One node's contribution in the `processChildNodes` loop, at absolute
offset `base` (the source's `baseOffset + beforeLength` at that node): its
subtree text and pushed format ranges.  A text node contributes its content
and no range; an element recurses into its children (pushing their ranges
first) and pushes its own range `[base, base + subtree length)` after them
when its subtree contributed text (`beforeLength < afterLength`) and its tag
has a format type, attaching the `href` of a non-empty anchor. -/
def processChildNode : HNode → Nat → String × List FormatRange
  | .text s, _ => (s, [])
  | .elem name attrs children, base =>
    let (childText, childRs) := pcnAux children base
    if 0 < childText.length then
      match getFormatType name with
      | some ft =>
        let url : Option String :=
          if name == "A" then
            match (HNode.elem name attrs children).getAttr "href" with
            | some h => if h ≠ "" then some h else none
            | none => none
          else none
        (childText,
         childRs ++ [{ start := (base : Nat), stop := (base + childText.length : Nat),
                       type := ft, url := url }])
      | none => (childText, childRs)
    else (childText, childRs)
termination_by structural n => n

/-- The `processChildNodes` loop over a node list starting at offset `base`:
the source accumulates a `result` string and measures each node against
`baseOffset + result.length`; the same walk expressed recursively, the tail
processed at `base` advanced by the head's text length.  Text and ranges are
concatenated in the source's push order. -/
def pcnAux : List HNode → Nat → String × List FormatRange
  | [], _ => ("", [])
  | node :: rest, base =>
    let (headText, headRs) := processChildNode node base
    let (tailText, tailRs) := pcnAux rest (base + headText.length)
    (headText ++ tailText, headRs ++ tailRs)
termination_by structural n => n
end

/-- Source `processChildNodes(childNodes, formatRanges, baseOffset)`: returns the
concatenated plain text and the format ranges pushed, in push order. -/
def processChildNodes (nodes : List HNode) (baseOffset : Nat) : String × List FormatRange :=
  pcnAux nodes baseOffset

/-- Source `hasInlineFormatting`: any of the six inline formatting tags occurs as a
descendant. -/
def hasInlineFormatting (element : HNode) : Bool :=
  ["STRONG", "B", "EM", "I", "CODE", "A"].any
    (fun tag => element.hasDescendant (fun n => n.isElemNamed tag))

/-- Source `getHeadingStyleType`: 1-based depth to named style, `NORMAL_TEXT` out of
range. -/
def getHeadingStyleType (depth : Nat) : String :=
  match depth with
  | 1 => "HEADING_1"
  | 2 => "HEADING_2"
  | 3 => "HEADING_3"
  | 4 => "HEADING_4"
  | 5 => "HEADING_5"
  | 6 => "HEADING_6"
  | _ => "NORMAL_TEXT"

/-- Source `parseInt(element.nodeName.charAt(1))` for the `H1`…`H6` tags. -/
def headingLevelOfName (name : String) : Nat :=
  match name.data with
  | _ :: c :: _ => c.toNat - '0'.toNat
  | _ => 0

/-- Source `processHeading`: one `insertText` of `text + "\n"` and one
`updateParagraphStyle` over `[insertIndex, insertIndex + text.length)` (the
trailing newline excluded from the styled range). -/
def processHeading (element : HNode) (insertIndex : Int) : List GRequest :=
  let text := element.textContent
  let headingText := text ++ "\n"
  [ .insertText insertIndex headingText,
    .updateParagraphStyle insertIndex (insertIndex + text.length) "namedStyleType" ]

/-- Recognizer for `insertText` requests (the `req.insertText` filter). -/
def isInsertTextReq : GRequest → Bool
  | .insertText _ _ => true
  | _ => false

/-- Source `calculateNewIndex`: index after the last `insertText` of the list
(`location.index + text.length`), or 1 when the list holds no `insertText`. -/
def calculateNewIndex (requests : List GRequest) : Int :=
  match (requests.filter isInsertTextReq).getLast? with
  | some (.insertText index text) => index + text.length
  | _ => 1

/-! ## URL validation and image processing -/

/-- Parsed URL components, as consulted by `isValidImageUrl`. -/
structure UrlParts where
  protocol : String
  hostname : String
  pathname : String
deriving Repr, DecidableEq

/-- Scheme characters after the first: ASCII alphanumeric, `+`, `-`, `.`. -/
def isSchemeChar (c : Char) : Bool :=
  c.isAlpha || c.isDigit || c == '+' || c == '-' || c == '.'

/-- Modelled platform behavior: `new URL(url)` of WHATWG, restricted to the
three components `isValidImageUrl` reads (`protocol` with its trailing colon,
lowercased; `hostname` lowercased, userinfo and port stripped; `pathname`).
`none` models the parse throwing.  A `scheme://` URL requires a non-empty
host; a scheme without `//` keeps the remainder as an opaque path. -/
def parseUrl (s : String) : Option UrlParts :=
  let chars := s.data
  let schemeChars := chars.takeWhile (fun c => c ≠ ':')
  let rest := chars.dropWhile (fun c => c ≠ ':')
  match schemeChars, rest with
  | c0 :: cs, _ :: afterColon =>
    if c0.isAlpha && cs.all isSchemeChar then
      let protocol := String.mk ((c0 :: cs).map Char.toLower) ++ ":"
      match afterColon with
      | '/' :: '/' :: afterSlashes =>
        let authority := afterSlashes.takeWhile (fun c => c ≠ '/' && c ≠ '?' && c ≠ '#')
        let rem := afterSlashes.dropWhile (fun c => c ≠ '/' && c ≠ '?' && c ≠ '#')
        let hostPort :=
          if authority.contains '@' then (authority.reverse.takeWhile (fun c => c ≠ '@')).reverse
          else authority
        let hostChars := hostPort.takeWhile (fun c => c ≠ ':')
        if hostChars.isEmpty then none
        else
          let pathChars := rem.takeWhile (fun c => c ≠ '?' && c ≠ '#')
          some { protocol := protocol,
                 hostname := String.mk (hostChars.map Char.toLower),
                 pathname := if pathChars.isEmpty then "/" else String.mk pathChars }
      | _ =>
        some { protocol := protocol, hostname := "",
               pathname := String.mk (afterColon.takeWhile (fun c => c ≠ '?' && c ≠ '#')) }
    else none
  | _, _ => none

/-- The recognized image file extensions (`imageExtensions`). -/
def imageExtensions : List String :=
  [".jpg", ".jpeg", ".png", ".gif", ".webp", ".bmp", ".svg"]

/-- Contiguous-subsequence test on character lists (substring containment). -/
def containsSeq (pat : List Char) : List Char → Bool
  | [] => pat.isPrefixOf []
  | c :: rest => pat.isPrefixOf (c :: rest) || containsSeq pat rest

/-- The `/\.(googleapis|imgur|cloudinary|unsplash|pexels)\./` hostname test:
the hostname contains `.name.` for one of the five services. -/
def isImageServiceHost (hostname : String) : Bool :=
  ["googleapis", "imgur", "cloudinary", "unsplash", "pexels"].any
    (fun svc => containsSeq ("." ++ svc ++ ".").data hostname.data)

/-- Source `pathname.toLowerCase()`. -/
def toLowerStr (s : String) : String :=
  String.mk (s.data.map Char.toLower)

/-- Source `pathname.endsWith(ext)`. -/
def strEndsWith (s suffixStr : String) : Bool :=
  suffixStr.data.isSuffixOf s.data

/-- Source `isValidImageUrl`: http/https, and either a recognized image extension on
the lowercased pathname or a recognized image-serving hostname. -/
def isValidImageUrl (url : String) : Bool :=
  match parseUrl url with
  | none => false
  | some u =>
    if !(u.protocol == "http:" || u.protocol == "https:") then false
    else
      let pathname := toLowerStr u.pathname
      imageExtensions.any (fun ext => strEndsWith pathname ext) || isImageServiceHost u.hostname

/-- JS truthiness of `getAttribute` results (`null` and `""` are falsy). -/
def attrTruthy (a : Option String) : Bool :=
  a.getD "" ≠ ""

/-- Source `processImageFallback`: styled placeholder text block — one `insertText`
of `📷 alt invalid source address!` (+ optional `\nSource: src`) + `\n\n`, a
bold+background style over the display text, and, when a source line exists,
an italic+small style over it. -/
def processImageFallback (alt src : String) (insertIndex : Int) : List GRequest :=
  let displayText := "📷 " ++ alt ++ " invalid source address!"
  let sourceText := if src ≠ "" then "\nSource: " ++ src else ""
  let fullText := displayText ++ sourceText ++ "\n\n"
  [ .insertText insertIndex fullText,
    .updateTextStyle insertIndex (insertIndex + displayText.length) "bold,backgroundColor" ]
  ++ (if sourceText ≠ "" then
      [ .updateTextStyle (insertIndex + displayText.length + 1)
          (insertIndex + displayText.length + sourceText.length) "italic,fontSize" ]
      else [])

/-- Source `processImage`: validate `src` (non-empty, ≤ 2000 chars, and
`isValidImageUrl`); on failure fall back to `processImageFallback`; on success
emit `insertText "\n"`, the `insertInlineImage` one position later, and a
trailing `insertText "\n"` one past the image. -/
def processImage (element : HNode) (insertIndex : Int) : List GRequest :=
  let src := (element.getAttr "src").getD ""
  let alt := if attrTruthy (element.getAttr "alt") then (element.getAttr "alt").getD "" else "Image"
  let width := element.getAttr "width"
  let height := element.getAttr "height"
  if src = "" || src.length > 2000 then
    processImageFallback alt src insertIndex
  else if !isValidImageUrl src then
    processImageFallback alt src insertIndex
  else
    [ .insertText insertIndex "\n",
      .insertInlineImage (insertIndex + 1) src
        (if attrTruthy width then width else none)
        (if attrTruthy height then height else none),
      .insertText (insertIndex + 1 + 1) "\n" ]

/-! ## Paragraphs and mixed content -/

/-- Loop body of `processMixedContent`: walk the paragraph's child nodes
carrying `currentIndex`; text nodes and simple elements insert their raw text
and advance by its length, `IMG` children delegate to `processImage` and
advance via `calculateNewIndex`, formatted elements insert their
`processChildNodes` text and stamp format requests at the insertion point.
Returns the requests and the final `currentIndex`. -/
def mixedAux : List HNode → Int → List GRequest × Int
  | [], currentIndex => ([], currentIndex)
  | child :: rest, currentIndex =>
    match child with
    | .text s =>
      if jsTrim s ≠ "" then
        let (ops, fin) := mixedAux rest (currentIndex + s.length)
        (.insertText currentIndex s :: ops, fin)
      else mixedAux rest currentIndex
    | .elem name _ _ =>
      if name = "IMG" then
        let imageRequests := processImage child currentIndex
        let (ops, fin) := mixedAux rest (calculateNewIndex imageRequests)
        (imageRequests ++ ops, fin)
      else if hasInlineFormatting child then
        let (textContent, formatRanges) := processChildNodes child.childNodes 0
        if jsTrim textContent ≠ "" then
          let fmts := formatRanges.filterMap (fun r => createFormatRequest r currentIndex)
          let (ops, fin) := mixedAux rest (currentIndex + textContent.length)
          (.insertText currentIndex textContent :: fmts ++ ops, fin)
        else mixedAux rest currentIndex
      else
        let text := child.textContent
        if jsTrim text ≠ "" then
          let (ops, fin) := mixedAux rest (currentIndex + text.length)
          (.insertText currentIndex text :: ops, fin)
        else mixedAux rest currentIndex

/-- Source `processMixedContent`: the child walk followed by the paragraph-ending
`insertText "\n"` at the final index. -/
def processMixedContent (element : HNode) (insertIndex : Int) : List GRequest :=
  let (ops, currentIndex) := mixedAux element.childNodes insertIndex
  ops ++ [.insertText currentIndex "\n"]

/-- Source `processParagraphWithInlineFormatting`: paragraphs holding images use the
mixed-content walk; otherwise one `insertText` of the formatted text + `"\n"`
followed by the format requests. -/
def processParagraphWithInlineFormatting (element : HNode) (insertIndex : Int) : List GRequest :=
  if element.hasDescendant (fun n => n.isElemNamed "IMG") then
    processMixedContent element insertIndex
  else
    let (textContent, formatRanges) := processChildNodes element.childNodes 0
    let fullText := textContent ++ "\n"
    .insertText insertIndex fullText
      :: formatRanges.filterMap (fun r => createFormatRequest r insertIndex)

/-- Source `processParagraph`: delegate when the paragraph holds images or inline
formatting; else a single `insertText` of `text + "\n"` when the text is not
blank. -/
def processParagraph (element : HNode) (insertIndex : Int) : List GRequest :=
  if element.hasDescendant (fun n => n.isElemNamed "IMG") || hasInlineFormatting element then
    processParagraphWithInlineFormatting element insertIndex
  else
    let text := element.textContent
    if jsTrim text ≠ "" then [.insertText insertIndex (text ++ "\n")] else []

/-! ## Lists -/

/-- One flattened list item produced by `processListItemsRecursively`:
`{text, level, formatRanges}` (text without leading tabs, 0-based nesting
level). -/
structure ListItemData where
  text : String
  level : Nat
  formatRanges : List FormatRange
deriving Repr, DecidableEq

/-- The per-`LI` body of `processListItemsRecursively` (excluding the nested
list recursion): find the first descendant `input[type="checkbox"]` and
derive the glyph prefix from its `checked` state; run `processChildNodes`
over the non-`UL`/`OL` child nodes; trim the text and clamp-shift the ranges
left by the removed leading whitespace; then, for a checkbox item, prepend
the glyph and shift every range right by its length. -/
def buildListItem (listItem : HNode) (level : Nat) : ListItemData :=
  let checkboxInput := listItem.firstDescendant isCheckboxInput
  let checkboxGlyph : String :=
    match checkboxInput with
    | some inp => if (inp.getAttr "checked").isSome then "✅ " else "❌ "
    | none => ""
  let ta := liTrimAdjusted listItem
  if checkboxGlyph ≠ "" then
    { text := checkboxGlyph ++ ta.1, level := level,
      formatRanges := ta.2.map (fun r =>
        { r with start := r.start + (checkboxGlyph.length : Int),
                 stop := r.stop + (checkboxGlyph.length : Int) }) }
  else
    { text := ta.1, level := level, formatRanges := ta.2 }
where
  /-- The glyph-independent part of the item extraction: run
  `processChildNodes` over the non-`UL`/`OL` child nodes, trim the text, and
  clamp-shift every range left by the removed leading whitespace
  (`Math.max(0, · - leadingSpaces)`, applied when `leadingSpaces > 0`). -/
  liTrimAdjusted (listItem : HNode) : String × List FormatRange :=
    let nonNestedChildren := listItem.childNodes.filter
      (fun c => c.nodeName ≠ "UL" && c.nodeName ≠ "OL")
    let (itemText, formatRanges) := processChildNodes nonNestedChildren 0
    let trimmedText := jsTrim itemText
    let leadingSpaces : Nat := itemText.length - (jsTrimLeft itemText).length
    let adjusted :=
      if leadingSpaces > 0 then
        formatRanges.map (fun r =>
          { r with start := max 0 (r.start - (leadingSpaces : Int)),
                   stop := max 0 (r.stop - (leadingSpaces : Int)) })
      else formatRanges
    (trimmedText, adjusted)

mutual
/-- Source `processListItemsRecursively`: flatten the list element into ordered
`ListItemData`, visiting each direct `LI`'s own content first and its nested
`UL`/`OL` sublists immediately after, depth-first. -/
def processListItemsRecursively : HNode → Nat → List ListItemData
  | .text _, _ => []
  | .elem _ _ children, level => listItemsOfChildren children level
termination_by structural e => e

/-- The `directListItems` loop: direct children filtered to `LI`. -/
def listItemsOfChildren : List HNode → Nat → List ListItemData
  | [], _ => []
  | child :: rest, level =>
    (match child with
     | .elem "LI" attrs kids =>
       buildListItem (.elem "LI" attrs kids) level :: nestedListItems kids (level + 1)
     | _ => []) ++ listItemsOfChildren rest level
termination_by structural l => l

/-- The nested-list loop: the `LI`'s element children filtered to `UL`/`OL`,
each flattened one level deeper. -/
def nestedListItems : List HNode → Nat → List ListItemData
  | [], _ => []
  | child :: rest, level =>
    (if child.nodeName == "UL" || child.nodeName == "OL"
     then processListItemsRecursively child level else [])
    ++ nestedListItems rest level
termination_by structural l => l
end

/-- Formatting bookkeeping entry of `processList`: the original (tab-free)
range, the item's insertion start (with tabs), and the item's level. -/
structure FormattingData where
  range : FormatRange
  itemStartIndex : Int
  itemLevel : Nat
deriving Repr, DecidableEq

/-- Source `'\t'.repeat(level)`. -/
def tabs (level : Nat) : String :=
  String.mk (List.replicate level '\t')

/-- The insertion loop of `processList`: one `insertText` per flattened item
(`tabs ++ text ++ "\n"`), collecting a `FormattingData` entry per format
range, both in source push order; returns the requests, the formatting data,
and the final `currentIndex`. -/
def listInsertAux : List ListItemData → Int → List GRequest × List FormattingData × Int
  | [], currentIndex => ([], [], currentIndex)
  | item :: rest, currentIndex =>
    let textWithTabs := tabs item.level ++ item.text
    let r := listInsertAux rest (currentIndex + textWithTabs.length + 1)
    (.insertText currentIndex (textWithTabs ++ "\n") :: r.1,
     item.formatRanges.map (fun fr =>
       { range := fr, itemStartIndex := currentIndex, itemLevel := item.level }) ++ r.2.1,
     r.2.2)

/-- The tab-counting scan of `processList`: walk the items from position
`currentItemPos`, stopping at the item whose position equals
`formatData.itemStartIndex` and summing the levels (= leading-tab counts) of
the items strictly before it. -/
def tabsRemovedBeforeScan : List ListItemData → Int → Int → Nat
  | [], _, _ => 0
  | item :: rest, currentItemPos, targetPos =>
    if currentItemPos = targetPos then 0
    else if currentItemPos < targetPos then
      item.level + tabsRemovedBeforeScan rest
        (currentItemPos + (tabs item.level ++ item.text).length + 1) targetPos
    else
      tabsRemovedBeforeScan rest
        (currentItemPos + (tabs item.level ++ item.text).length + 1) targetPos

/-- Total leading tabs across all items
(`items.reduce((total, item) => total + item.level, 0)`). -/
def totalTabs (items : List ListItemData) : Nat :=
  items.foldl (fun total item => total + item.level) 0

/-- Source `processList`: leading `insertText "\n"`, the per-item insertions, one
`createParagraphBullets` over the whole span, the corrected format requests
(each anchored at the item start minus the tabs removed before it), and the
trailing `insertText "\n"` at the tab-corrected end. -/
def processList (element : HNode) (insertIndex : Int) (bulletPreset : String) : List GRequest :=
  let items := processListItemsRecursively element 0
  let r := listInsertAux items (insertIndex + 1)
  let currentIndex := r.2.2
  let bulletAndFormatOps :=
    if items.length > 0 then
      let listStartIndex := insertIndex + 1
      let listEndIndex := currentIndex - 1
      GRequest.createParagraphBullets listStartIndex listEndIndex bulletPreset
        :: r.2.1.filterMap (fun fd =>
            let totalTabsRemovedBefore :=
              tabsRemovedBeforeScan items (insertIndex + 1) fd.itemStartIndex
            let adjustedItemStart := fd.itemStartIndex - (totalTabsRemovedBefore : Int)
            createFormatRequest fd.range adjustedItemStart)
    else []
  let tabsRemoved := totalTabs items
  let adjustedEndIndex := currentIndex - 1 - (tabsRemoved : Int)
  GRequest.insertText insertIndex "\n"
    :: r.1 ++ bulletAndFormatOps
    ++ [.insertText (adjustedEndIndex + 1) "\n"]

/-- Source `processUnorderedList`: checkbox lists (any descendant
`input[type="checkbox"]`) use the `BULLET_CHECKBOX` preset, other unordered
lists `BULLET_DISC_CIRCLE_SQUARE`. -/
def processUnorderedList (element : HNode) (insertIndex : Int) : List GRequest :=
  if element.hasDescendant isCheckboxInput then
    processList element insertIndex "BULLET_CHECKBOX"
  else
    processList element insertIndex "BULLET_DISC_CIRCLE_SQUARE"

/-- Source `processOrderedList`. -/
def processOrderedList (element : HNode) (insertIndex : Int) : List GRequest :=
  processList element insertIndex "NUMBERED_DECIMAL_ALPHA_ROMAN"

/-! ## Tables -/

/-- One extracted table cell: `{content, formatRanges, isHeader}`. -/
structure CellData where
  content : String
  formatRanges : List FormatRange
  isHeader : Bool
deriving Repr, DecidableEq

/-- Cell extraction of `processTable`: rows are the descendant `TR`s, cells
the descendant `TH`/`TD`s of each row; a cell is a header when its tag is
`TH` or it sits in row 0; formatted cells keep `processChildNodes` output
untrimmed, plain cells their trimmed `textContent`. -/
def tableCellData (element : HNode) : List (List CellData) :=
  let rows := element.allDescendants (fun n => n.isElemNamed "TR")
  rows.enum.map (fun (rowIndex, row) =>
    let cells := row.allDescendants (fun n => n.isElemNamed "TH" || n.isElemNamed "TD")
    cells.map (fun cell =>
      let isHeader := cell.nodeName == "TH" || rowIndex == 0
      if hasInlineFormatting cell then
        let (cellContent, formatRanges) := processChildNodes cell.childNodes 0
        { content := cellContent, formatRanges := formatRanges, isHeader := isHeader }
      else
        { content := jsTrim cell.textContent, formatRanges := [], isHeader := isHeader }))

/-- Per-cell body of the `processTable` walk at boundary `currentCellIndex`:
cell text goes at `currentCellIndex + 1`; a non-empty cell emits its text,
its inline format requests, and (for headers) a bold text style plus a
`CENTER` paragraph style, and advances the boundary by `content.length + 2`;
an empty cell emits a bare `"\n"` and advances by 2. -/
def tableCellOps (cellData : CellData) (currentCellIndex : Int) : List GRequest × Int :=
  let textPosition := currentCellIndex + 1
  if cellData.content ≠ "" then
    (GRequest.insertText textPosition cellData.content
       :: cellData.formatRanges.filterMap (fun r => createFormatRequest r textPosition)
       ++ (if cellData.isHeader then
            [ .updateTextStyle textPosition (textPosition + cellData.content.length) "bold",
              .updateParagraphStyle textPosition (textPosition + cellData.content.length)
                "alignment" ]
           else []),
     currentCellIndex + cellData.content.length + 2)
  else
    ([.insertText textPosition "\n"], currentCellIndex + 2)

/-- One row of the `processTable` walk (the inner `colIndex` loop). -/
def tableRowOps : List CellData → Int → List GRequest × Int
  | [], currentCellIndex => ([], currentCellIndex)
  | cell :: rest, currentCellIndex =>
    let (ops, next) := tableCellOps cell currentCellIndex
    let (restOps, fin) := tableRowOps rest next
    (ops ++ restOps, fin)

/-- All rows of the `processTable` walk: after each row the boundary advances
by one extra position (`currentCellIndex += 1`, "extra spacing between
rows"). -/
def tableRowsOps : List (List CellData) → Int → List GRequest × Int
  | [], currentCellIndex => ([], currentCellIndex)
  | row :: rest, currentCellIndex =>
    let (ops, next) := tableRowOps row currentCellIndex
    let (restOps, fin) := tableRowsOps rest (next + 1)
    (ops ++ restOps, fin)

/-- Source `processTableAsText`: the textual fallback block. -/
def processTableAsText (tableData : List (List String)) (insertIndex : Int) : List GRequest :=
  let headerAndRows :=
    match tableData with
    | [] => ""
    | row0 :: restRows =>
      "Headers: " ++ String.intercalate ", " row0 ++ "\n"
        ++ String.join (restRows.enum.map (fun (i, row) =>
            "Row " ++ toString (i + 1) ++ ": " ++ String.intercalate ", " row ++ "\n"))
  [.insertText insertIndex ("\n[Table Content]\n" ++ headerAndRows ++ "\n")]

/-- Source `processTable`: one `insertTable(rows, cols)` at `insertIndex`, the cell
walk starting at boundary `insertIndex + 3`, and a trailing `insertText "\n"`
at the final boundary.  (The source wraps the walk in `try/catch` with
`processTableAsText` as the handler; nothing in the walk can throw, so the
embedding is the `try` branch — `processTableAsText` is kept above as it is
part of the source.) -/
def processTable (element : HNode) (insertIndex : Int) : List GRequest :=
  match tableCellData element with
  | [] => []
  | row0 :: restRows =>
    if row0.length = 0 then []
    else
      let tableData := row0 :: restRows
      let tp := tableRowsOps tableData (insertIndex + 3)
      GRequest.insertTable insertIndex tableData.length row0.length
        :: tp.1 ++ [.insertText tp.2 "\n"]

/-- The cell text inserted by the walk: the content, or a bare newline for
an empty cell. -/
def cellText (c : CellData) : String :=
  if c.content ≠ "" then c.content else "\n"

/-- Boundary advance past one cell: its content length plus 2 (an empty
cell's bare newline advances by exactly 2 as well). -/
def cellAdvance (c : CellData) : Int :=
  (c.content.length : Int) + 2

/-- Cell boundaries of one row: each subsequent boundary advances by
`cellAdvance` past the previous cell. -/
def rowBoundaries : List CellData → Int → List Int
  | [], _ => []
  | c :: rest, b => b :: rowBoundaries rest (b + cellAdvance c)

/-- End boundary of one row. -/
def rowEndBoundary : List CellData → Int → Int
  | [], b => b
  | c :: rest, b => rowEndBoundary rest (b + cellAdvance c)

/-- The corrected cell-boundary scheme of the table walk: the first boundary
is the walk's start (`insertIndex + 3`); within a row each subsequent
boundary advances by the previous cell's content length plus 2; at each row
end one extra index position is skipped. -/
def tableBoundaries : List (List CellData) → Int → List Int
  | [], _ => []
  | row :: rest, b => rowBoundaries row b ++ tableBoundaries rest (rowEndBoundary row b + 1)

/-- The claim's cell-boundary scheme: first boundary `insertIndex + 3`,
*every* subsequent boundary exactly 2 past the previous cell's content —
with no row-gap skip. -/
def claimTableBoundaries : List CellData → Int → List Int
  | [], _ => []
  | c :: rest, b => b :: claimTableBoundaries rest (b + cellAdvance c)

/-! ## Blockquote, code block, horizontal rule -/

/-- The blockquote border/indent paragraph style fields. -/
def blockquoteFields : String := "indentStart,borderLeft"

/-- Source `processBlockquote`: insert the (formatted or plain) text + `"\n"`, the
format requests when formatting is present, and the border/indent paragraph
style over `[insertIndex, insertIndex + fullText.length - 1)`. -/
def processBlockquote (element : HNode) (insertIndex : Int) : List GRequest :=
  if hasInlineFormatting element then
    let (textContent, formatRanges) := processChildNodes element.childNodes 0
    let fullText := textContent ++ "\n"
    GRequest.insertText insertIndex fullText
      :: formatRanges.filterMap (fun r => createFormatRequest r insertIndex)
      ++ [.updateParagraphStyle insertIndex (insertIndex + fullText.length - 1) blockquoteFields]
  else
    let text := jsTrim element.textContent
    let fullText := text ++ "\n"
    [ .insertText insertIndex fullText,
      .updateParagraphStyle insertIndex (insertIndex + fullText.length - 1) blockquoteFields ]

/-- Source `processCodeBlock`: one `insertText` of `text + "\n"` and a monospace +
background text style over `[insertIndex, insertIndex + text.length)`. -/
def processCodeBlock (element : HNode) (insertIndex : Int) : List GRequest :=
  let text := element.textContent
  [ .insertText insertIndex (text ++ "\n"),
    .updateTextStyle insertIndex (insertIndex + text.length)
      "weightedFontFamily,backgroundColor" ]

/-- Source `processHorizontalRule`: empty-paragraph `insertText "\n"`, a bottom
border + spacing paragraph style over `[insertIndex, insertIndex + 1)`, and a
second `insertText "\n"` at `insertIndex + 1`. -/
def processHorizontalRule (insertIndex : Int) : List GRequest :=
  [ .insertText insertIndex "\n",
    .updateParagraphStyle insertIndex (insertIndex + 1) "borderBottom,spaceAbove,spaceBelow",
    .insertText (insertIndex + 1) "\n" ]

/-! ## Dispatch, top-level loop, packaging -/

/-- Source `processHtmlElement`: skip whitespace-only text nodes, dispatch elements
on `nodeName`, and fall through to a trimmed-text `insertText` default. -/
def processHtmlElement (element : HNode) (insertIndex : Int) : List GRequest :=
  match element with
  | .text s =>
    if jsTrim s = "" then []
    else [.insertText insertIndex (jsTrim s ++ "\n")]
  | .elem name _ _ =>
    if name = "H1" || name = "H2" || name = "H3"
        || name = "H4" || name = "H5" || name = "H6" then
      processHeading element insertIndex
    else if name = "P" then processParagraph element insertIndex
    else if name = "UL" then processUnorderedList element insertIndex
    else if name = "OL" then processOrderedList element insertIndex
    else if name = "TABLE" then processTable element insertIndex
    else if name = "BLOCKQUOTE" then processBlockquote element insertIndex
    else if name = "PRE" then processCodeBlock element insertIndex
    else if name = "HR" then processHorizontalRule insertIndex
    else if name = "IMG" then processImage element insertIndex
    else if jsTrim element.textContent ≠ "" then
      [.insertText insertIndex (jsTrim element.textContent ++ "\n")]
    else []

/-- The element loop of `convertMarkdownToApiRequests`: convert each body
child at the running index; only blocks with a non-empty request list advance
the index, via `calculateNewIndex`. -/
def processElements : List HNode → Int → List GRequest
  | [], _ => []
  | element :: rest, insertIndex =>
    let elementRequests := processHtmlElement element insertIndex
    if elementRequests.length > 0 then
      elementRequests ++ processElements rest (calculateNewIndex elementRequests)
    else
      processElements rest insertIndex

/-- The insertion index after the last block (the final value of
`insertIndex` in the element loop). -/
def finalCursor : List HNode → Int → Int
  | [], insertIndex => insertIndex
  | element :: rest, insertIndex =>
    let elementRequests := processHtmlElement element insertIndex
    if elementRequests.length > 0 then
      finalCursor rest (calculateNewIndex elementRequests)
    else
      finalCursor rest insertIndex

/-- One numbered request of the `"multiple"` output (`{requestId, request}`). -/
structure NumberedRequest where
  requestId : Nat
  request : GRequest
deriving Repr, DecidableEq

/-- Source `ConversionResult`: `documentTitle`, `createDocumentRequest.title`,
`batchUpdateRequest.requests`, and the optional numbered `requests` array. -/
structure ConversionResult where
  documentTitle : String
  createTitle : String
  batchRequests : List GRequest
  requests : Option (List NumberedRequest)
deriving Repr, DecidableEq

/-- JS `String.prototype.replace` with a string pattern on character lists:
rewrite the first occurrence of `pat` (non-empty) with `rep`. -/
def replaceFirstAux (pat rep : List Char) : List Char → List Char
  | [] => []
  | c :: rest =>
    if pat.isPrefixOf (c :: rest) then rep ++ (c :: rest).drop pat.length
    else c :: replaceFirstAux pat rep rest

/-- JS `s.replace(pat, rep)` with a string pattern: at most the first
occurrence is rewritten; an empty pattern matches at position 0. -/
def jsReplaceFirst (s pat rep : String) : String :=
  if pat = "" then rep ++ s
  else ⟨replaceFirstAux pat.data rep.data s.data⟩

/-- The "fix escaped characters from n8n" step:
`markdownInput.replace('`', '`')` — both the pattern and the
replacement are the one-character backtick string. -/
def cleanMarkdown (markdownInput : String) : String :=
  jsReplaceFirst markdownInput "`" "`"

/-- The body of `convertMarkdownToApiRequests` downstream of `marked` +
`JSDOM`: `elements` is `document.body.childNodes`; the request list is
generated once and packaged per `outputFormat` (`"single"`: batch only; any
other value: batch plus the 1-based numbered copy). -/
def convertElementsToApiRequests (elements : List HNode) (documentTitle outputFormat : String) :
    ConversionResult :=
  let requests := processElements elements 1
  if outputFormat = "single" then
    { documentTitle := documentTitle, createTitle := documentTitle,
      batchRequests := requests, requests := none }
  else
    { documentTitle := documentTitle, createTitle := documentTitle,
      batchRequests := requests,
      requests := some (requests.enum.map (fun (index, req) =>
        { requestId := index + 1, request := req })) }

/-! ## The line-based list pass of the cheerio revision (src/unnamed/part_009)

The cheerio revision of `MarkdownProcessor.processList` flattens each list
into items of `ListLine`s (`{text, isPrimary, formatRanges}`, secondary lines
coming from explicit `<br>` breaks), inserts everything as one text block
(phase 1), bullets the whole block (phase 2), and then re-stamps formatting
in a second walk maintaining `totalTabsRemoved` (phase 3).  No leading
newline is inserted in this revision. -/
namespace V2

/-- A `ListLine` of the cheerio revision. -/
structure LineItem where
  text : String
  isPrimary : Bool
  formatRanges : List FormatRange
deriving Repr, DecidableEq

/-- One flattened item: nesting `level` and its lines. -/
structure LineItemList where
  level : Nat
  lines : List LineItem
deriving Repr, DecidableEq

/-- Source `LineMetadata` of phase 1: the line, its item's level, its insertion
`startIndex`, and the inserted text (tabs included, newline excluded). -/
structure LineMetadata where
  line : LineItem
  level : Nat
  startIndex : Int
  textToInsert : String
deriving Repr, DecidableEq

/-- Phase 1 over the lines of one item: primary lines get `level` leading
tabs, secondary lines none; each line is recorded with its running
`currentIndex` and contributes `textToInsert + "\n"`. -/
def phase1Lines (level : Nat) : List LineItem → Int → List LineMetadata × String × Int
  | [], currentIndex => ([], "", currentIndex)
  | line :: rest, currentIndex =>
    let leadingTabs := if line.isPrimary then tabs level else ""
    let textToInsert := leadingTabs ++ line.text
    let lineTextForRequest := textToInsert ++ "\n"
    let (ms, full, fin) := phase1Lines level rest (currentIndex + lineTextForRequest.length)
    ({ line := line, level := level, startIndex := currentIndex,
       textToInsert := textToInsert } :: ms,
     lineTextForRequest ++ full, fin)

/-- Phase 1 over all flattened items. -/
def phase1Items : List LineItemList → Int → List LineMetadata × String × Int
  | [], currentIndex => ([], "", currentIndex)
  | item :: rest, currentIndex =>
    let (ms, full, next) := phase1Lines item.level item.lines currentIndex
    let (ms2, full2, fin) := phase1Items rest next
    (ms ++ ms2, full ++ full2, fin)

/-- The requests phase 3 emits for one line once its corrected start is
known: the line's format requests, then — for a secondary line — a bullet
removal and a manual-indentation paragraph style over the corrected line
span. -/
def lineOps (meta : LineMetadata) (adjustedStartIndex : Int) : List GRequest :=
  let adjustedEndIndex := adjustedStartIndex + meta.textToInsert.length
  meta.line.formatRanges.filterMap (fun r => createFormatRequest r adjustedStartIndex)
  ++ (if !meta.line.isPrimary then
      [ .deleteParagraphBullets adjustedStartIndex adjustedEndIndex,
        .updateParagraphStyle adjustedStartIndex adjustedEndIndex
          "indentStart,indentFirstLine" ]
      else [])

/-- Phase 3: walk the line metadata in order with the running
`totalTabsRemoved`; each line's corrected start is
`startIndex - totalTabsRemoved`, and `totalTabsRemoved` grows by `level`
only after a primary line. -/
def phase3 : List LineMetadata → Nat → List GRequest
  | [], _ => []
  | meta :: rest, totalTabsRemoved =>
    lineOps meta (meta.startIndex - (totalTabsRemoved : Int))
    ++ phase3 rest
        (if meta.line.isPrimary then totalTabsRemoved + meta.level else totalTabsRemoved)

/-- The corrected start of each line, in phase-3 order (the
`adjustedStartIndex` sequence of the phase-3 loop). -/
def adjustedStarts : List LineMetadata → Nat → List Int
  | [], _ => []
  | meta :: rest, totalTabsRemoved =>
    (meta.startIndex - (totalTabsRemoved : Int))
      :: adjustedStarts rest
          (if meta.line.isPrimary then totalTabsRemoved + meta.level else totalTabsRemoved)

/-- The final `totalTabsRemoved` of phase 3: levels of the primary lines. -/
def primaryTabs (ms : List LineMetadata) : Nat :=
  ms.foldl (fun t m => if m.line.isPrimary then t + m.level else t) 0

/-- Source `processList` of the cheerio revision, over the flattened items: one
`insertText` of the whole block, one `createParagraphBullets` over
`[insertIndex, insertIndex + fullText.length - 1)`, the phase-3 corrections,
and `spaceAbove` / `spaceBelow` styles on the first and last lines at their
tab-corrected offsets. -/
def processList (items : List LineItemList) (insertIndex : Int) (bulletPreset : String) :
    List GRequest :=
  if items.length = 0 then []
  else
    let (lineMetadata, fullTextToInsert, _) := phase1Items items insertIndex
    let listEndIndex := insertIndex + fullTextToInsert.length - 1
    let totalTabsRemoved := primaryTabs lineMetadata
    let spacingOps :=
      (match lineMetadata.head? with
       | some firstItemMeta =>
         [GRequest.updateParagraphStyle
            (firstItemMeta.startIndex - (totalTabsRemoved : Int))
            (firstItemMeta.startIndex - (totalTabsRemoved : Int)
              + firstItemMeta.textToInsert.length) "spaceAbove"]
       | none => [])
      ++ (match lineMetadata.getLast? with
       | some lastItemMeta =>
         [GRequest.updateParagraphStyle
            (lastItemMeta.startIndex - (totalTabsRemoved : Int))
            (lastItemMeta.startIndex - (totalTabsRemoved : Int)
              + lastItemMeta.textToInsert.length) "spaceBelow"]
       | none => [])
    GRequest.insertText insertIndex fullTextToInsert
      :: GRequest.createParagraphBullets insertIndex listEndIndex bulletPreset
      :: phase3 lineMetadata 0
      ++ spacingOps

end V2

/-! ## Page Break Injector (spec-modelled) -/

/-- Shift every document offset of a request by `d`. -/
def shiftReq (d : Int) : GRequest → GRequest
  | .insertText i t => .insertText (i + d) t
  | .updateTextStyle s e f => .updateTextStyle (s + d) (e + d) f
  | .updateParagraphStyle s e f => .updateParagraphStyle (s + d) (e + d) f
  | .createParagraphBullets s e p => .createParagraphBullets (s + d) (e + d) p
  | .deleteParagraphBullets s e => .deleteParagraphBullets (s + d) (e + d)
  | .insertTable i r c => .insertTable (i + d) r c
  | .insertInlineImage i u w h => .insertInlineImage (i + d) u w h
  | .insertPageBreak i => .insertPageBreak (i + d)

/-- Modelled from the spec: the Page Break Injector pass of the conversion
entry point (its implementation is not under src/ — only its callers, the
`insertPageBreak` request type and the `pageBreakStrategy` node fields are).
Per the spec it "walks the parsed block sequence and splices an
InsertPageBreak immediately before the heading's own InsertText, shifting
all subsequent offsets by the break's fixed width (2 index positions)" —
strategy `"h1"` fires before every `H1` except the first, strategy `"h2"`
before every `H2`.  `seen` records whether a target heading was already
passed; a fired break occupies 2 index positions, so the heading's block is
converted 2 positions later. -/
def injectPageBreaksAux (targetName : String) (exceptFirst : Bool) :
    List HNode → Int → Bool → List GRequest
  | [], _, _ => []
  | element :: rest, insertIndex, seen =>
    let isTarget := element.nodeName == targetName
    if isTarget && (!exceptFirst || seen) then
      let elementRequests := processHtmlElement element (insertIndex + 2)
      GRequest.insertPageBreak insertIndex
        :: elementRequests
        ++ injectPageBreaksAux targetName exceptFirst rest
            (calculateNewIndex elementRequests) true
    else
      let elementRequests := processHtmlElement element insertIndex
      if elementRequests.length > 0 then
        elementRequests ++ injectPageBreaksAux targetName exceptFirst rest
          (calculateNewIndex elementRequests) (seen || isTarget)
      else
        injectPageBreaksAux targetName exceptFirst rest insertIndex (seen || isTarget)

/-- Modelled from the spec: the conversion entry point with a page-break
strategy selected: `"h1"` and `"h2"` run the injector pass, anything else the
plain element loop. -/
def injectPageBreaks (strategy : String) (elements : List HNode) (startIndex : Int) :
    List GRequest :=
  if strategy = "h1" then injectPageBreaksAux "H1" true elements startIndex false
  else if strategy = "h2" then injectPageBreaksAux "H2" false elements startIndex false
  else processElements elements startIndex

/-- The claim's reading of the injector, defined against the break-free
conversion: each block keeps its break-free requests shifted by the
accumulated break width, and a fired break sits immediately before its
heading's block (whose own requests, like every subsequent operation, are
shifted 2 further). `insertIndex` is the break-free index of the next block
and `shift` the accumulated width of the breaks spliced so far. -/
def splicedSpec (targetName : String) (exceptFirst : Bool) :
    List HNode → Int → Bool → Int → List GRequest
  | [], _, _, _ => []
  | element :: rest, insertIndex, seen, shift =>
    let base := processHtmlElement element insertIndex
    let isTarget := element.nodeName == targetName
    if isTarget && (!exceptFirst || seen) then
      GRequest.insertPageBreak (insertIndex + shift)
        :: base.map (shiftReq (shift + 2))
        ++ splicedSpec targetName exceptFirst rest (calculateNewIndex base) true (shift + 2)
    else if base.length > 0 then
      base.map (shiftReq shift)
        ++ splicedSpec targetName exceptFirst rest (calculateNewIndex base)
            (seen || isTarget) shift
    else
      splicedSpec targetName exceptFirst rest insertIndex (seen || isTarget) shift

/-! ## Projection helpers used by the claim statements -/

/-- The `insertText` operations of a request list, as `(index, text)` pairs,
in emission order. -/
def insertTexts (requests : List GRequest) : List (Int × String) :=
  requests.filterMap (fun r => match r with
    | .insertText i t => some (i, t)
    | _ => none)

/-- The range of a style operation (`updateTextStyle` or
`updateParagraphStyle`), if the request is one. -/
def styleRange : GRequest → Option (Int × Int)
  | .updateTextStyle s e _ => some (s, e)
  | .updateParagraphStyle s e _ => some (s, e)
  | _ => none

/-- Is the request an `insertInlineImage`? -/
def isInlineImageReq : GRequest → Bool
  | .insertInlineImage _ _ _ _ => true
  | _ => false

/-- Is the request an `updateTextStyle`? -/
def isTextStyleReq : GRequest → Bool
  | .updateTextStyle _ _ _ => true
  | _ => false

/-! ## Basic lemmas -/

theorem isPrefixOf_append_drop {α} [DecidableEq α] :
    ∀ (pat l : List α), pat.isPrefixOf l = true → pat ++ l.drop pat.length = l
  | [], l, _ => by simp
  | a :: as, [], h => by simp [List.isPrefixOf] at h
  | a :: as, b :: bs, h => by
    simp only [List.isPrefixOf, Bool.and_eq_true, beq_iff_eq] at h
    obtain ⟨rfl, h2⟩ := h
    simpa using isPrefixOf_append_drop as bs h2

theorem replaceFirstAux_self (pat : List Char) : ∀ l, replaceFirstAux pat pat l = l := by
  intro l
  induction l with
  | nil => rfl
  | cons c rest ih =>
    unfold replaceFirstAux
    split
    · next h => exact isPrefixOf_append_drop pat (c :: rest) h
    · rw [ih]

/-- C10: the "fix escaped characters" preprocessing step of the conversion
entry point is the identity: `markdownInput.replace('`', '`')` replaces (at
most) the first occurrence of the one-character backtick string with itself,
so the cleaned markdown handed to the parser equals the raw input. -/
theorem c10_cleanMarkdown_identity (markdownInput : String) :
    cleanMarkdown markdownInput = markdownInput := by
  show jsReplaceFirst markdownInput "`" "`" = markdownInput
  unfold jsReplaceFirst
  rw [if_neg (by decide)]
  show String.mk (replaceFirstAux "`".data "`".data markdownInput.data) = markdownInput
  rw [replaceFirstAux_self]

/-- C9: the generated operation list is identical in `"single"` and
`"multiple"` output modes; `"multiple"` adds a numbered copy whose entry at
0-based position `i` is `{requestId := i + 1, request := requests[i]}`;
`"single"` omits the numbered array. -/
theorem c9_output_packaging (elements : List HNode) (title : String) :
    (convertElementsToApiRequests elements title "single").batchRequests
        = (convertElementsToApiRequests elements title "multiple").batchRequests
    ∧ (convertElementsToApiRequests elements title "single").requests = none
    ∧ (∀ i : Nat,
        ((convertElementsToApiRequests elements title "multiple").requests.getD [])[i]?
          = ((convertElementsToApiRequests elements title "multiple").batchRequests[i]?).map
              (fun req => { requestId := i + 1, request := req })) := by
  refine ⟨rfl, rfl, fun i => ?_⟩
  show ((processElements elements 1).enum.map (fun p =>
      ({ requestId := p.1 + 1, request := p.2 } : NumberedRequest)))[i]?
    = ((processElements elements 1)[i]?).map _
  rw [List.getElem?_map, List.getElem?_enum]
  cases h : (processElements elements 1)[i]? <;> simp

/-! ## Concrete inputs for counterexamples and witnesses -/

/-- A 2×1 table: `| A |` header row, `| B |` data row. -/
def cexTable : HNode :=
  .elem "TABLE" []
    [ .elem "TR" [] [.elem "TD" [] [.text "A"]],
      .elem "TR" [] [.elem "TD" [] [.text "B"]] ]

/-- An empty `H1` heading (reachable from markdown via an inline-HTML
`<h1></h1>` block). -/
def cexEmptyHeading : HNode := .elem "H1" [] []

/-- A list item whose bold run carries three trailing spaces (reachable via
inline HTML `<li><strong>y   </strong></li>`). -/
def cexTrailList : HNode :=
  .elem "UL" [] [.elem "LI" [] [.elem "STRONG" [] [.text "y   "]]]

/-- The checked checkbox item holding `**done**`: marked renders
`- [x] **done**` as `<li><input checked disabled type="checkbox"> <strong>done</strong></li>`. -/
def cexCheckboxItem : HNode :=
  .elem "LI" []
    [ .elem "INPUT" [("checked", ""), ("disabled", ""), ("type", "checkbox")] [],
      .text " ",
      .elem "STRONG" [] [.text "done"] ]

/-- The flattened form of the two-level nested list `- A` with nested `- B`
(both lines primary, level 0 and 1, no format ranges), as the cheerio
`processListItemsRecursively` produces it. -/
def cexNestedItems : List V2.LineItemList :=
  [ { level := 0, lines := [{ text := "A", isPrimary := true, formatRanges := [] }] },
    { level := 1, lines := [{ text := "B", isPrimary := true, formatRanges := [] }] } ]

/-- C3 counterexample: on the 2×1 table the block emits the consecutive
`insertText` pair `(5, "A")` then `(9, "B")`, and `9 ≠ 5 + "A".length`: the
second index is not the first plus the first text's length (cell boundaries
intervene), refuting the claim's consecutive-equality conjunct. -/
theorem c3_counterexample :
    insertTexts (processHtmlElement cexTable 1) = [(5, "A"), (9, "B"), (12, "\n")]
    ∧ ¬ ((9 : Int) = 5 + ("A".length : Int)) := by
  exact ⟨by decide, by decide⟩

/-- C4 counterexample: the claim's fixed scheme (every subsequent boundary
exactly 2 past the previous cell's content, no row gap) predicts boundaries
`[4, 7]` for the 2×1 table converted at index 1 — so the second cell's text
at boundary + 1 = 8 — but the code inserts it at 9: one extra position is
skipped at the row end. -/
theorem c4_counterexample :
    claimTableBoundaries (tableCellData cexTable).flatten (1 + 3) = [4, 7]
    ∧ insertTexts (processHtmlElement cexTable 1) = [(5, "A"), (9, "B"), (12, "\n")]
    ∧ ¬ ((9 : Int) = 7 + 1) := by
  exact ⟨by decide, by decide, by decide⟩

/-- C8 counterexample: converting `[<h1></h1>, <ul><li><strong>y   </strong></li></ul>]`
from index 1 emits the paragraph style range `[1, 1)` (violating
`start < end`) and the text style range `[3, 7)` while the final cursor is 6
(violating `end ≤ finalCursor`). -/
theorem c8_counterexample :
    processElements [cexEmptyHeading, cexTrailList] 1 =
      [ .insertText 1 "\n",
        .updateParagraphStyle 1 1 "namedStyleType",
        .insertText 2 "\n",
        .insertText 3 "y\n",
        .createParagraphBullets 3 4 "BULLET_DISC_CIRCLE_SQUARE",
        .updateTextStyle 3 7 "bold",
        .insertText 5 "\n" ]
    ∧ finalCursor [cexEmptyHeading, cexTrailList] 1 = 6
    ∧ styleRange (.updateParagraphStyle 1 1 "namedStyleType") = some (1, 1)
    ∧ ¬ ((1 : Int) < 1)
    ∧ styleRange (.updateTextStyle 3 7 "bold") = some (3, 7)
    ∧ ¬ ((7 : Int) ≤ 6) := by
  refine ⟨by decide, by decide, rfl, by decide, rfl, by decide⟩

/-! ## C1: the phase-3 correction pass of the cheerio list converter -/

namespace V2

theorem primaryTabs_shift (ms : List LineMetadata) :
    ∀ a : Nat, ms.foldl (fun t m => if m.line.isPrimary then t + m.level else t) a
      = a + primaryTabs ms := by
  induction ms with
  | nil => intro a; simp [primaryTabs]
  | cons m rest ih =>
    intro a
    show List.foldl _ (if m.line.isPrimary then a + m.level else a) rest = _
    rw [ih]
    show _ = a + List.foldl _ (if m.line.isPrimary then 0 + m.level else 0) rest
    rw [ih]
    by_cases h : m.line.isPrimary <;> simp [h] <;> omega

theorem primaryTabs_cons (m : LineMetadata) (rest : List LineMetadata) :
    primaryTabs (m :: rest)
      = (if m.line.isPrimary then m.level else 0) + primaryTabs rest := by
  show List.foldl _ (if m.line.isPrimary then 0 + m.level else 0) rest = _
  rw [primaryTabs_shift]
  by_cases h : m.line.isPrimary <;> simp [h]

theorem phase3_append (pre suf : List LineMetadata) :
    ∀ t : Nat, phase3 (pre ++ suf) t = phase3 pre t ++ phase3 suf (t + primaryTabs pre) := by
  induction pre with
  | nil => intro t; simp [phase3, primaryTabs]
  | cons m rest ih =>
    intro t
    show lineOps m _ ++ phase3 (rest ++ suf) _ = (lineOps m _ ++ phase3 rest _) ++ _
    rw [ih, List.append_assoc, primaryTabs_cons]
    by_cases h : m.line.isPrimary <;> simp [h] <;> ring_nf

theorem adjustedStarts_append (pre suf : List LineMetadata) :
    ∀ t : Nat, adjustedStarts (pre ++ suf) t
      = adjustedStarts pre t ++ adjustedStarts suf (t + primaryTabs pre) := by
  induction pre with
  | nil => intro t; simp [adjustedStarts, primaryTabs]
  | cons m rest ih =>
    intro t
    show (m.startIndex - (t : Int)) :: adjustedStarts (rest ++ suf) _
      = ((m.startIndex - (t : Int)) :: adjustedStarts rest _) ++ _
    rw [ih, List.cons_append, primaryTabs_cons]
    by_cases h : m.line.isPrimary <;> simp [h] <;> ring_nf

theorem phase3_eq_zip_adjustedStarts (ms : List LineMetadata) :
    ∀ t : Nat, phase3 ms t
      = ((ms.zip (adjustedStarts ms t)).map (fun p => lineOps p.1 p.2)).flatten := by
  induction ms with
  | nil => intro t; rfl
  | cons m rest ih =>
    intro t
    show lineOps m _ ++ phase3 rest _ = _
    rw [ih]
    rfl

end V2

/-- C1 (amended): phase 3 of the cheerio list converter re-stamps each
flattened line's operations at its corrected start, which equals its
original start minus the running `tabsRemovedSoFar` — the sum of `level`
over exactly the *primary* lines strictly before it; equivalently, its
emitted operations follow the `adjustedStarts` schedule.  For the two-level
nested list `- A` / nested `- B`, both lines are primary with levels 0 and
1, so item B's corrected start equals its pre-correction start (3) minus 0 —
not minus 1: the preceding primary item A is at level 0 and contributed no
tabs, and B's own tab is not yet counted when B is reached. -/
theorem c1_list_tab_correction :
    (∀ pre (m : V2.LineMetadata) suf,
      V2.phase3 (pre ++ m :: suf) 0
        = V2.phase3 pre 0
          ++ V2.lineOps m (m.startIndex - (V2.primaryTabs pre : Int))
          ++ V2.phase3 suf
              (V2.primaryTabs pre + (if m.line.isPrimary then m.level else 0)))
    ∧ (∀ ms t, V2.phase3 ms t
        = ((ms.zip (V2.adjustedStarts ms t)).map (fun p => V2.lineOps p.1 p.2)).flatten)
    ∧ ((V2.phase1Items cexNestedItems 1).1.map (fun m => m.startIndex) = [1, 3]
        ∧ V2.adjustedStarts (V2.phase1Items cexNestedItems 1).1 0 = [1, 3]) := by
  refine ⟨fun pre m suf => ?_, V2.phase3_eq_zip_adjustedStarts, by decide, by decide⟩
  rw [V2.phase3_append pre (m :: suf) 0]
  show _ ++ (V2.lineOps m _ ++ V2.phase3 suf _) = _
  rw [← List.append_assoc]
  congr 2
  · congr 1; omega
  · by_cases h : m.line.isPrimary <;> simp [h]

/-- C1 counterexample: in the flattened two-level list `- A` / nested `- B`,
line B's pre-correction start is 3 and its corrected start (second entry of
the phase-3 `adjustedStarts` schedule) is also 3 — but the claim asserts the
corrected start equals the pre-correction start minus exactly 1, and
`3 - 1 ≠ 3`. -/
theorem c1_counterexample :
    (V2.phase1Items cexNestedItems 1).1.map (fun m => m.startIndex) = [1, 3]
    ∧ V2.adjustedStarts (V2.phase1Items cexNestedItems 1).1 0 = [1, 3]
    ∧ ¬ ((3 : Int) - 1 = 3) := by
  exact ⟨by decide, by decide, by decide⟩

/-! ## C2: the cursor tracker rule -/

theorem insertTexts_append (rs1 rs2 : List GRequest) :
    insertTexts (rs1 ++ rs2) = insertTexts rs1 ++ insertTexts rs2 := by
  simp [insertTexts]

theorem calculateNewIndex_eq_getLast (rs : List GRequest) :
    calculateNewIndex rs
      = match (insertTexts rs).getLast? with
        | some (i, t) => i + (t.length : Int)
        | none => 1 := by
  have hmap : insertTexts rs = (rs.filter isInsertTextReq).map
      (fun r => match r with | .insertText i t => (i, t) | _ => ((0 : Int), "")) := by
    induction rs with
    | nil => rfl
    | cons r rest ih =>
      cases r <;> simp [insertTexts, isInsertTextReq, List.filter] at ih ⊢ <;>
        simpa [insertTexts] using ih
  rw [calculateNewIndex, hmap, List.getLast?_map]
  rcases h : (rs.filter isInsertTextReq).getLast? with _ | r
  · rfl
  · have hr : isInsertTextReq r = true := by
      have hx : r ∈ (rs.filter isInsertTextReq).getLast? := by rw [h]; rfl
      obtain ⟨hne, rfl⟩ := List.mem_getLast?_eq_getLast hx
      exact List.of_mem_filter (List.getLast_mem hne)
    cases r <;> simp [isInsertTextReq] at hr <;> rfl

theorem calculateNewIndex_append_non_insert (rs : List GRequest) (op : GRequest)
    (h : isInsertTextReq op = false) :
    calculateNewIndex (rs ++ [op]) = calculateNewIndex rs := by
  unfold calculateNewIndex
  rw [List.filter_append]
  have : List.filter isInsertTextReq [op] = [] := by simp [List.filter, h]
  rw [this, List.append_nil]

theorem processImage_head (e : HNode) (idx : Int) :
    ∃ txt rest, processImage e idx = .insertText idx txt :: rest := by
  unfold processImage processImageFallback
  dsimp only
  repeat' split
  all_goals exact ⟨_, _, rfl⟩

theorem processImage_any_insertText (e : HNode) (idx : Int) :
    (processImage e idx).any isInsertTextReq = true := by
  obtain ⟨txt, rest, h⟩ := processImage_head e idx
  rw [h]
  simp [isInsertTextReq]

theorem processMixedContent_any_insertText (e : HNode) (idx : Int) :
    (processMixedContent e idx).any isInsertTextReq = true := by
  unfold processMixedContent
  simp [isInsertTextReq]

theorem processList_any_insertText (e : HNode) (idx : Int) (p : String) :
    (processList e idx p).any isInsertTextReq = true := by
  unfold processList
  simp [isInsertTextReq]

theorem processTable_any_insertText (e : HNode) (idx : Int)
    (h : processTable e idx ≠ []) :
    (processTable e idx).any isInsertTextReq = true := by
  unfold processTable at h ⊢
  rcases htd : tableCellData e with _ | ⟨row0, rest⟩
  · simp [htd] at h
  · simp only [htd] at h ⊢
    split at h
    · simp at h
    · next hr0 =>
      rw [if_neg hr0]
      simp [isInsertTextReq]

theorem processParagraph_empty_or_any (e : HNode) (idx : Int) :
    processParagraph e idx = [] ∨ (processParagraph e idx).any isInsertTextReq = true := by
  unfold processParagraph
  split
  · right
    unfold processParagraphWithInlineFormatting
    split
    · exact processMixedContent_any_insertText e idx
    · simp [isInsertTextReq]
  · dsimp only
    split
    · right; simp [isInsertTextReq]
    · left; rfl

theorem processTable_empty_or_any (e : HNode) (idx : Int) :
    processTable e idx = [] ∨ (processTable e idx).any isInsertTextReq = true := by
  unfold processTable
  split
  · left; rfl
  · split
    · left; rfl
    · right; simp [isInsertTextReq]

theorem processBlockquote_any_insertText (e : HNode) (idx : Int) :
    (processBlockquote e idx).any isInsertTextReq = true := by
  unfold processBlockquote
  split <;> simp [isInsertTextReq]

/-- Every block converter returns either no requests or a list holding at
least one `insertText`. -/
theorem processHtmlElement_empty_or_any (e : HNode) (idx : Int) :
    processHtmlElement e idx = [] ∨ (processHtmlElement e idx).any isInsertTextReq = true := by
  cases e with
  | text s =>
    by_cases ht : jsTrim s = ""
    · left; simp [processHtmlElement, ht]
    · right; simp [processHtmlElement, ht, isInsertTextReq]
  | elem name attrs children =>
    unfold processHtmlElement
    dsimp only
    split
    · right; simp [processHeading, isInsertTextReq]
    all_goals split
    · exact processParagraph_empty_or_any _ _
    all_goals split
    · right
      unfold processUnorderedList
      split
      · exact processList_any_insertText _ _ _
      · exact processList_any_insertText _ _ _
    all_goals split
    · right; exact processList_any_insertText _ _ _
    all_goals split
    · exact processTable_empty_or_any _ _
    all_goals split
    · right; exact processBlockquote_any_insertText _ _
    all_goals split
    · right; simp [processCodeBlock, isInsertTextReq]
    all_goals split
    · right; simp [processHorizontalRule, isInsertTextReq]
    all_goals split
    · right; exact processImage_any_insertText _ _
    all_goals split
    · right; simp [isInsertTextReq]
    · left; rfl

/-- Every block whose converter returns a non-empty request list emits at
least one `insertText`. -/
theorem processHtmlElement_any_insertText (e : HNode) (idx : Int)
    (h : processHtmlElement e idx ≠ []) :
    (processHtmlElement e idx).any isInsertTextReq = true := by
  rcases processHtmlElement_empty_or_any e idx with he | ha
  · exact absurd he h
  · exact ha

/-- C2: for every block whose converter returns a non-empty request list,
the insertion index used for the next block (`calculateNewIndex`, as applied
by the element loop) equals the `at` index of the block's last `insertText`
plus that text's length; and appending any non-`insertText` operation
(style, table, bullet) to a request list never changes `calculateNewIndex`. -/
theorem c2_cursor_tracker (element : HNode) (insertIndex : Int)
    (h : processHtmlElement element insertIndex ≠ []) :
    (∃ i t, (insertTexts (processHtmlElement element insertIndex)).getLast? = some (i, t)
        ∧ calculateNewIndex (processHtmlElement element insertIndex) = i + (t.length : Int))
    ∧ (∀ rest, processElements (element :: rest) insertIndex
        = processHtmlElement element insertIndex
          ++ processElements rest (calculateNewIndex (processHtmlElement element insertIndex)))
    ∧ (∀ (rs : List GRequest) (op : GRequest), isInsertTextReq op = false →
        calculateNewIndex (rs ++ [op]) = calculateNewIndex rs) := by
  refine ⟨?_, ?_, calculateNewIndex_append_non_insert⟩
  · have hany := processHtmlElement_any_insertText element insertIndex h
    have hne : insertTexts (processHtmlElement element insertIndex) ≠ [] := by
      rcases List.any_eq_true.mp hany with ⟨op, hmem, hop⟩
      cases op <;> simp [isInsertTextReq] at hop
      next i t =>
        intro hnil
        have : (i, t) ∈ insertTexts (processHtmlElement element insertIndex) := by
          simp [insertTexts, List.mem_filterMap]
          exact ⟨.insertText i t, hmem, rfl⟩
        rw [hnil] at this
        simp at this
    rcases hlast : (insertTexts (processHtmlElement element insertIndex)).getLast? with _ | ⟨i, t⟩
    · exact absurd (List.getLast?_eq_none_iff.mp hlast) hne
    · exact ⟨i, t, rfl, by rw [calculateNewIndex_eq_getLast, hlast]⟩
  · intro rest
    conv_lhs => rw [processElements]
    rw [if_pos (by simpa [List.length_pos] using h)]

/-- C2 witness: the heading block `<h1>Title</h1>` converted at index 1 is
non-empty; its last `insertText` is `(1, "Title\n")` and the next index is 7. -/
theorem c2_cursor_tracker_witness :
    processHtmlElement (.elem "H1" [] [.text "Title"]) 1 ≠ []
    ∧ (∃ i t,
        (insertTexts (processHtmlElement (.elem "H1" [] [.text "Title"]) 1)).getLast?
          = some (i, t)
        ∧ calculateNewIndex (processHtmlElement (.elem "H1" [] [.text "Title"]) 1)
          = i + (t.length : Int)) :=
  ⟨by decide, (c2_cursor_tracker (.elem "H1" [] [.text "Title"]) 1 (by decide)).1⟩

/-! ## C5: checkbox prefix offset shift -/

/-- C5: a list item recognized as a checkbox item (it holds an
`input[type="checkbox"]` descendant) gets a fixed two-character glyph prefix
(`✅ ` when checked, `❌ ` when not) prepended to its text, and every one of
its format ranges is shifted right — start and end alike — by exactly the
prefix length, relative to the trim-adjusted ranges of the item's content;
in particular, `"**done**"` inside a checked checkbox item yields a bold
range starting at 2, not 0. -/
theorem c5_checkbox_shift (listItem : HNode) (level : Nat) (inp : HNode)
    (h : listItem.firstDescendant isCheckboxInput = some inp) :
    (if (inp.getAttr "checked").isSome then "✅ " else "❌ ").length = 2
    ∧ buildListItem listItem level =
      { text := (if (inp.getAttr "checked").isSome then "✅ " else "❌ ")
                  ++ (buildListItem.liTrimAdjusted listItem).1,
        level := level,
        formatRanges := (buildListItem.liTrimAdjusted listItem).2.map (fun r =>
          { r with
            start := r.start
              + ((if (inp.getAttr "checked").isSome then "✅ " else "❌ ").length : Int),
            stop := r.stop
              + ((if (inp.getAttr "checked").isSome then "✅ " else "❌ ").length : Int) }) }
    ∧ buildListItem cexCheckboxItem 0 =
        { text := "✅ done", level := 0,
          formatRanges := [{ start := 2, stop := 6, type := "bold", url := none }] }
    ∧ (buildListItem cexCheckboxItem 0).formatRanges.map (fun r => r.start) = [2] := by
  refine ⟨?_, ?_, by decide, by decide⟩
  · by_cases hc : (inp.getAttr "checked").isSome <;> simp [hc] <;> rfl
  · unfold buildListItem
    rw [h]
    dsimp only
    have hne : (if (inp.getAttr "checked").isSome then "✅ " else "❌ ") ≠ "" := by
      by_cases hc : (inp.getAttr "checked").isSome <;> simp [hc]
    rw [if_pos hne]

/-- C5 witness: the theorem applied to the concrete checked checkbox item
`<li><input checked disabled type="checkbox"> <strong>done</strong></li>`. -/
theorem c5_checkbox_shift_witness :
    HNode.firstDescendant isCheckboxInput cexCheckboxItem
      = some (.elem "INPUT" [("checked", ""), ("disabled", ""), ("type", "checkbox")] [])
    ∧ (buildListItem cexCheckboxItem 0).formatRanges.map (fun r => r.start) = [2] :=
  ⟨rfl,
   (c5_checkbox_shift cexCheckboxItem 0
      (.elem "INPUT" [("checked", ""), ("disabled", ""), ("type", "checkbox")] [])
      rfl).2.2.2⟩

/-! ## C6: image fallback -/

theorem processImageFallback_shape (alt src : String) (idx : Int) :
    (processImageFallback alt src idx).all
        (fun op => isInsertTextReq op || isTextStyleReq op) = true
    ∧ (processImageFallback alt src idx).any isInlineImageReq = false := by
  unfold processImageFallback
  constructor <;> (split_ifs <;> simp [isInsertTextReq, isTextStyleReq, isInlineImageReq])

/-- The claim's URL conditions imply `isValidImageUrl` rejects. -/
theorem isValidImageUrl_false_of (src : String)
    (h : parseUrl src = none
       ∨ ∃ u, parseUrl src = some u
           ∧ (¬(u.protocol = "http:" ∨ u.protocol = "https:")
              ∨ ((imageExtensions.any
                    (fun ext => strEndsWith (toLowerStr u.pathname) ext)) = false
                 ∧ isImageServiceHost u.hostname = false))) :
    isValidImageUrl src = false := by
  unfold isValidImageUrl
  rcases h with h | ⟨u, hu, hbad⟩
  · rw [h]
  · rw [hu]
    rcases hbad with hproto | ⟨hext, hhost⟩
    · have : (u.protocol == "http:" || u.protocol == "https:") = false := by
        rcases hb : u.protocol == "http:" with _ | _
        · rcases hb2 : u.protocol == "https:" with _ | _
          · rfl
          · exact absurd (Or.inr (eq_of_beq hb2)) hproto
        · exact absurd (Or.inl (eq_of_beq hb)) hproto
      simp [this]
    · simp only [hext, hhost]
      split
      · rfl
      · simp

/-- C6: an image whose `src` is empty, longer than 2000 characters, fails to
parse as a URL, is not http/https, or has neither a recognized image
extension nor a recognized image-serving hostname never emits an
`insertInlineImage`; its converter returns only `insertText` and
`updateTextStyle` fallback operations (and, being a total function, never
aborts the conversion). -/
theorem c6_image_fallback (e : HNode) (idx : Int)
    (h : (e.getAttr "src").getD "" = ""
       ∨ 2000 < ((e.getAttr "src").getD "").length
       ∨ parseUrl ((e.getAttr "src").getD "") = none
       ∨ ∃ u, parseUrl ((e.getAttr "src").getD "") = some u
           ∧ (¬(u.protocol = "http:" ∨ u.protocol = "https:")
              ∨ ((imageExtensions.any
                    (fun ext => strEndsWith (toLowerStr u.pathname) ext)) = false
                 ∧ isImageServiceHost u.hostname = false))) :
    (processImage e idx).all (fun op => isInsertTextReq op || isTextStyleReq op) = true
    ∧ (processImage e idx).any isInlineImageReq = false := by
  unfold processImage
  dsimp only
  rcases h with h | h | h | h
  · rw [if_pos (by simp [h])]
    exact processImageFallback_shape _ _ _
  · rw [if_pos (by simp [h])]
    exact processImageFallback_shape _ _ _
  · split
    · exact processImageFallback_shape _ _ _
    · rw [if_pos (by simp [isValidImageUrl_false_of _ (Or.inl h)])]
      exact processImageFallback_shape _ _ _
  · split
    · exact processImageFallback_shape _ _ _
    · rw [if_pos (by simp [isValidImageUrl_false_of _ (Or.inr h)])]
      exact processImageFallback_shape _ _ _

/-- C6 witness: `<img src="https://example.com/page.html">` — http(s) URL
with neither an image extension nor an image-service host — taken through
the theorem at index 1. -/
theorem c6_image_fallback_witness :
    (parseUrl "https://example.com/page.html"
        = some { protocol := "https:", hostname := "example.com", pathname := "/page.html" })
    ∧ ((processImage (.elem "IMG" [("src", "https://example.com/page.html")] []) 1).all
          (fun op => isInsertTextReq op || isTextStyleReq op) = true
        ∧ (processImage (.elem "IMG" [("src", "https://example.com/page.html")] []) 1).any
            isInlineImageReq = false) :=
  ⟨by decide,
   c6_image_fallback (.elem "IMG" [("src", "https://example.com/page.html")] []) 1
     (Or.inr (Or.inr (Or.inr
       ⟨{ protocol := "https:", hostname := "example.com", pathname := "/page.html" },
        by decide, Or.inr ⟨by decide, by decide⟩⟩)))⟩

/-! ## Per-operation invariants (C3 and C8, amended)

`opOk idx op`: every `insertText` of a block converted at `idx` sits at an
index ≥ `idx`, and every style range `[s, e)` it emits satisfies
`idx ≤ s ∧ s ≤ e`. -/

/-- The per-operation invariant of a block converted at `idx`. -/
def opOk (idx : Int) (op : GRequest) : Prop :=
  (∀ i t, op = .insertText i t → idx ≤ i)
  ∧ (∀ s e, styleRange op = some (s, e) → idx ≤ s ∧ s ≤ e)

theorem opOk_mono {idx' idx : Int} {op : GRequest} (h : idx' ≤ idx) :
    opOk idx op → opOk idx' op := by
  rintro ⟨h1, h2⟩
  exact ⟨fun i t ht => le_trans h (h1 i t ht),
         fun s e hs => ⟨le_trans h (h2 s e hs).1, (h2 s e hs).2⟩⟩

theorem opOk_not_insert_not_style {idx : Int} {op : GRequest}
    (h1 : ∀ i t, op ≠ .insertText i t) (h2 : styleRange op = none) : opOk idx op := by
  refine ⟨fun i t ht => absurd ht (h1 i t), fun s e hs => ?_⟩
  rw [h2] at hs
  exact absurd hs (by simp)

theorem opOk_insertText {idx i : Int} {t : String} (h : idx ≤ i) :
    opOk idx (.insertText i t) := by
  refine ⟨fun i' t' ht => ?_, fun s e hs => by simp [styleRange] at hs⟩
  injection ht with h1 h2
  omega

theorem opOk_textStyle {idx s e : Int} {f : String} (h1 : idx ≤ s) (h2 : s ≤ e) :
    opOk idx (.updateTextStyle s e f) := by
  refine ⟨fun i t ht => by simp at ht, fun s' e' hs => ?_⟩
  simp [styleRange] at hs
  omega

theorem opOk_paraStyle {idx s e : Int} {f : String} (h1 : idx ≤ s) (h2 : s ≤ e) :
    opOk idx (.updateParagraphStyle s e f) := by
  refine ⟨fun i t ht => by simp at ht, fun s' e' hs => ?_⟩
  simp [styleRange] at hs
  omega

/-- Well-formedness of a format range as produced by the inline walk. -/
def rangeOk (r : FormatRange) : Prop :=
  0 ≤ r.start ∧ r.start ≤ r.stop

theorem opOk_createFormatRequest {r : FormatRange} {a idx : Int} {op : GRequest}
    (hr : rangeOk r) (ha : idx ≤ a) (heq : createFormatRequest r a = some op) :
    opOk idx op := by
  obtain ⟨h0, h1⟩ := hr
  unfold createFormatRequest at heq
  dsimp only at heq
  split at heq <;>
    first
    | (injection heq with heq
       subst heq
       exact opOk_textStyle (by omega) (by omega))
    | (split at heq <;>
        first
        | (injection heq with heq
           subst heq
           exact opOk_textStyle (by omega) (by omega))
        | exact absurd heq (by simp))
    | exact absurd heq (by simp)

mutual
theorem processChildNode_ranges : ∀ (n : HNode) (base : Nat),
    ∀ r ∈ (processChildNode n base).2, (base : Int) ≤ r.start ∧ r.start ≤ r.stop
  | .text s, base => by simp [processChildNode]
  | .elem name attrs children, base => by
    have ih := pcnAux_ranges children base
    unfold processChildNode
    dsimp only
    split
    · split
      · intro r hr
        rw [List.mem_append] at hr
        rcases hr with hr | hr
        · exact ih r hr
        · simp at hr
          subst hr
          refine ⟨le_refl _, ?_⟩
          simp
      · exact ih
    · exact ih
termination_by structural n => n

theorem pcnAux_ranges : ∀ (nodes : List HNode) (base : Nat),
    ∀ r ∈ (pcnAux nodes base).2, (base : Int) ≤ r.start ∧ r.start ≤ r.stop
  | [], base => by simp [pcnAux]
  | node :: rest, base => by
    have ih1 := processChildNode_ranges node base
    have ih2 := pcnAux_ranges rest (base + (processChildNode node base).1.length)
    unfold pcnAux
    dsimp only
    intro r hr
    rw [List.mem_append] at hr
    rcases hr with hr | hr
    · exact ih1 r hr
    · have := ih2 r hr
      refine ⟨le_trans ?_ this.1, this.2⟩
      push_cast
      omega
termination_by structural nodes => nodes
end

theorem processChildNodes_rangeOk (nodes : List HNode) :
    ∀ r ∈ (processChildNodes nodes 0).2, rangeOk r := by
  intro r hr
  have := pcnAux_ranges nodes 0 r hr
  exact ⟨by exact_mod_cast this.1, this.2⟩

theorem processHeading_opOk (e : HNode) (idx : Int) :
    ∀ op ∈ processHeading e idx, opOk idx op := by
  intro op hop
  unfold processHeading at hop
  rcases List.mem_cons.mp hop with rfl | hop
  · exact opOk_insertText (le_refl _)
  rcases List.mem_singleton.mp hop with rfl
  exact opOk_paraStyle (le_refl _) (by omega)

theorem processCodeBlock_opOk (e : HNode) (idx : Int) :
    ∀ op ∈ processCodeBlock e idx, opOk idx op := by
  intro op hop
  unfold processCodeBlock at hop
  rcases List.mem_cons.mp hop with rfl | hop
  · exact opOk_insertText (le_refl _)
  rcases List.mem_singleton.mp hop with rfl
  exact opOk_textStyle (le_refl _) (by omega)

theorem processHorizontalRule_opOk (idx : Int) :
    ∀ op ∈ processHorizontalRule idx, opOk idx op := by
  intro op hop
  unfold processHorizontalRule at hop
  rcases List.mem_cons.mp hop with rfl | hop
  · exact opOk_insertText (le_refl _)
  rcases List.mem_cons.mp hop with rfl | hop
  · exact opOk_paraStyle (le_refl _) (by omega)
  rcases List.mem_singleton.mp hop with rfl
  exact opOk_insertText (by omega)

theorem processBlockquote_opOk (e : HNode) (idx : Int) :
    ∀ op ∈ processBlockquote e idx, opOk idx op := by
  intro op hop
  unfold processBlockquote at hop
  split at hop
  · rcases List.mem_cons.mp hop with rfl | hop
    · exact opOk_insertText (le_refl _)
    rcases List.mem_append.mp hop with hop | hop
    · rcases List.mem_filterMap.mp hop with ⟨r, hr, heq⟩
      exact opOk_createFormatRequest (processChildNodes_rangeOk _ r hr) (le_refl _) heq
    · rcases List.mem_singleton.mp hop with rfl
      refine opOk_paraStyle (le_refl _) ?_
      rw [String.length_append]
      have hn : ("\n".length : Int) = 1 := rfl
      push_cast
      omega
  · rcases List.mem_cons.mp hop with rfl | hop
    · exact opOk_insertText (le_refl _)
    rcases List.mem_singleton.mp hop with rfl
    refine opOk_paraStyle (le_refl _) ?_
    rw [String.length_append]
    have hn : ("\n".length : Int) = 1 := rfl
    push_cast
    omega

theorem processImageFallback_opOk (alt src : String) (idx : Int) :
    ∀ op ∈ processImageFallback alt src idx, opOk idx op := by
  intro op hop
  unfold processImageFallback at hop
  dsimp only at hop
  rcases List.mem_append.mp hop with hop | hop
  · rcases List.mem_cons.mp hop with rfl | hop
    · exact opOk_insertText (le_refl _)
    rcases List.mem_singleton.mp hop with rfl
    exact opOk_textStyle (le_refl _) (by omega)
  · by_cases hs : src ≠ ""
    · rw [if_pos hs] at hop
      have hne : ("\nSource: " ++ src) ≠ "" := by
        intro hc
        have hlen := congrArg String.length hc
        rw [String.length_append] at hlen
        have h9 : ("\nSource: ").length = 9 := rfl
        have h0 : ("" : String).length = 0 := rfl
        omega
      rw [if_pos hne] at hop
      rcases List.mem_singleton.mp hop with rfl
      refine opOk_textStyle (by omega) ?_
      simp only [String.length_append]
      have h9 : ("\nSource: ").length = 9 := rfl
      push_cast
      omega
    · rw [if_neg hs] at hop
      rw [if_neg (by simp)] at hop
      cases hop

theorem processImage_opOk (e : HNode) (idx : Int) :
    ∀ op ∈ processImage e idx, opOk idx op := by
  intro op hop
  unfold processImage at hop
  dsimp only at hop
  split at hop
  · exact processImageFallback_opOk _ _ _ op hop
  split at hop
  · exact processImageFallback_opOk _ _ _ op hop
  · rcases List.mem_cons.mp hop with rfl | hop
    · exact opOk_insertText (le_refl _)
    rcases List.mem_cons.mp hop with rfl | hop
    · exact opOk_not_insert_not_style (by intro i t h; cases h) rfl
    rcases List.mem_singleton.mp hop with rfl
    exact opOk_insertText (by omega)

theorem calculateNewIndex_ge {idx : Int} {rs : List GRequest}
    (h : ∀ op ∈ rs, opOk idx op) (hne : rs.any isInsertTextReq = true) :
    idx ≤ calculateNewIndex rs := by
  unfold calculateNewIndex
  rcases hlast : (rs.filter isInsertTextReq).getLast? with _ | r
  · rcases List.any_eq_true.mp hne with ⟨op, hmem, hop⟩
    have hf : op ∈ rs.filter isInsertTextReq := List.mem_filter.mpr ⟨hmem, hop⟩
    have hnil : rs.filter isInsertTextReq = [] := List.getLast?_eq_none_iff.mp hlast
    rw [hnil] at hf
    cases hf
  · have hmem : r ∈ rs.filter isInsertTextReq := by
      have hx : r ∈ (rs.filter isInsertTextReq).getLast? := by rw [hlast]; rfl
      obtain ⟨hne2, rfl⟩ := List.mem_getLast?_eq_getLast hx
      exact List.getLast_mem hne2
    have hr : isInsertTextReq r = true := List.of_mem_filter hmem
    have hrs : r ∈ rs := List.mem_of_mem_filter hmem
    cases r with
    | insertText i t =>
      have := (h _ hrs).1 i t rfl
      show idx ≤ i + (t.length : Int)
      omega
    | _ => simp [isInsertTextReq] at hr

theorem processImage_calcNewIndex_ge (e : HNode) (idx : Int) :
    idx ≤ calculateNewIndex (processImage e idx) :=
  calculateNewIndex_ge (processImage_opOk e idx) (processImage_any_insertText e idx)

theorem mixedAux_opOk (children : List HNode) :
    ∀ idx : Int, (∀ op ∈ (mixedAux children idx).1, opOk idx op)
      ∧ idx ≤ (mixedAux children idx).2 := by
  induction children with
  | nil => exact fun idx => ⟨(fun op hop => nomatch hop), le_refl idx⟩
  | cons child rest ih =>
    intro idx
    unfold mixedAux
    cases child with
    | text s =>
      dsimp only
      split
      · refine ⟨?_, ?_⟩
        · intro op hop
          rcases List.mem_cons.mp hop with rfl | hop
          · exact opOk_insertText (le_refl _)
          · exact opOk_mono (by omega) ((ih (idx + s.length)).1 op hop)
        · exact le_trans (by omega) (ih (idx + s.length)).2
      · exact ih idx
    | elem name attrs kids =>
      dsimp only
      split
      · refine ⟨?_, ?_⟩
        · intro op hop
          rcases List.mem_append.mp hop with hop | hop
          · exact processImage_opOk _ _ op hop
          · exact opOk_mono (processImage_calcNewIndex_ge _ idx)
              ((ih _).1 op hop)
        · exact le_trans (processImage_calcNewIndex_ge _ idx) (ih _).2
      split
      · split
        · refine ⟨?_, ?_⟩
          · intro op hop
            rcases List.mem_cons.mp hop with rfl | hop
            · exact opOk_insertText (le_refl _)
            rcases List.mem_append.mp hop with hop | hop
            · rcases List.mem_filterMap.mp hop with ⟨r, hr, heq⟩
              exact opOk_createFormatRequest (processChildNodes_rangeOk _ r hr)
                (le_refl _) heq
            · exact opOk_mono (by omega) ((ih _).1 op hop)
          · exact le_trans (by omega) (ih _).2
        · exact ih idx
      · split
        · refine ⟨?_, ?_⟩
          · intro op hop
            rcases List.mem_cons.mp hop with rfl | hop
            · exact opOk_insertText (le_refl _)
            · exact opOk_mono (by omega) ((ih _).1 op hop)
          · exact le_trans (by omega) (ih _).2
        · exact ih idx

theorem processMixedContent_opOk (e : HNode) (idx : Int) :
    ∀ op ∈ processMixedContent e idx, opOk idx op := by
  intro op hop
  unfold processMixedContent at hop
  rcases List.mem_append.mp hop with hop | hop
  · exact (mixedAux_opOk e.childNodes idx).1 op hop
  · rcases List.mem_singleton.mp hop with rfl
    exact opOk_insertText (mixedAux_opOk e.childNodes idx).2

theorem processParagraph_opOk (e : HNode) (idx : Int) :
    ∀ op ∈ processParagraph e idx, opOk idx op := by
  intro op hop
  unfold processParagraph at hop
  split at hop
  · unfold processParagraphWithInlineFormatting at hop
    split at hop
    · exact processMixedContent_opOk e idx op hop
    · rcases List.mem_cons.mp hop with rfl | hop
      · exact opOk_insertText (le_refl _)
      rcases List.mem_filterMap.mp hop with ⟨r, hr, heq⟩
      exact opOk_createFormatRequest (processChildNodes_rangeOk _ r hr) (le_refl _) heq
  · dsimp only at hop
    split at hop
    · rcases List.mem_singleton.mp hop with rfl
      exact opOk_insertText (le_refl _)
    · cases hop

theorem tableCellOps_opOk (cell : CellData) (cci idx : Int)
    (hcell : ∀ r ∈ cell.formatRanges, rangeOk r) (hge : idx ≤ cci) :
    (∀ op ∈ (tableCellOps cell cci).1, opOk idx op)
      ∧ cci ≤ (tableCellOps cell cci).2 := by
  unfold tableCellOps
  dsimp only
  split
  · refine ⟨?_, by omega⟩
    intro op hop
    rcases List.mem_cons.mp hop with rfl | hop
    · exact opOk_insertText (by omega)
    rcases List.mem_append.mp hop with hop | hop
    · rcases List.mem_filterMap.mp hop with ⟨r, hr, heq⟩
      exact opOk_createFormatRequest (hcell r hr) (by omega) heq
    · split at hop
      · rcases List.mem_cons.mp hop with rfl | hop
        · exact opOk_textStyle (by omega) (by omega)
        rcases List.mem_singleton.mp hop with rfl
        exact opOk_paraStyle (by omega) (by omega)
      · cases hop
  · refine ⟨?_, by omega⟩
    intro op hop
    rcases List.mem_singleton.mp hop with rfl
    exact opOk_insertText (by omega)

theorem tableRowOps_opOk (row : List CellData) :
    ∀ (cci idx : Int), (∀ cell ∈ row, ∀ r ∈ cell.formatRanges, rangeOk r) → idx ≤ cci →
    (∀ op ∈ (tableRowOps row cci).1, opOk idx op)
      ∧ cci ≤ (tableRowOps row cci).2 := by
  induction row with
  | nil => exact fun cci idx _ _ => ⟨(fun op hop => nomatch hop), le_refl cci⟩
  | cons cell rest ih =>
    intro cci idx hranges hge
    unfold tableRowOps
    dsimp only
    have hc := tableCellOps_opOk cell cci idx (hranges cell (by simp)) hge
    have hr := ih (tableCellOps cell cci).2 idx
      (fun c hc r hr => hranges c (by simp [hc]) r hr) (le_trans hge hc.2)
    refine ⟨?_, le_trans hc.2 hr.2⟩
    intro op hop
    rcases List.mem_append.mp hop with hop | hop
    · exact hc.1 op hop
    · exact hr.1 op hop

theorem tableRowsOps_opOk (rows : List (List CellData)) :
    ∀ (cci idx : Int), (∀ row ∈ rows, ∀ cell ∈ row, ∀ r ∈ cell.formatRanges, rangeOk r) →
    idx ≤ cci →
    (∀ op ∈ (tableRowsOps rows cci).1, opOk idx op)
      ∧ cci ≤ (tableRowsOps rows cci).2 := by
  induction rows with
  | nil => exact fun cci idx _ _ => ⟨(fun op hop => nomatch hop), le_refl cci⟩
  | cons row rest ih =>
    intro cci idx hranges hge
    unfold tableRowsOps
    dsimp only
    have hrow := tableRowOps_opOk row cci idx (hranges row (by simp)) hge
    have hrest := ih ((tableRowOps row cci).2 + 1) idx
      (fun r hr => hranges r (by simp [hr])) (by have := hrow.2; omega)
    refine ⟨?_, by have := hrow.2; have := hrest.2; omega⟩
    intro op hop
    rcases List.mem_append.mp hop with hop | hop
    · exact hrow.1 op hop
    · exact hrest.1 op hop

theorem tableCellData_rangeOk (e : HNode) :
    ∀ row ∈ tableCellData e, ∀ cell ∈ row, ∀ r ∈ cell.formatRanges, rangeOk r := by
  intro row hrow cell hcell r hr
  unfold tableCellData at hrow
  rcases List.mem_map.mp hrow with ⟨⟨rowIndex, rowNode⟩, _, rfl⟩
  rcases List.mem_map.mp hcell with ⟨cellNode, _, rfl⟩
  dsimp only at hr
  split at hr
  · exact processChildNodes_rangeOk _ r hr
  · cases hr

theorem processTable_opOk (e : HNode) (idx : Int) :
    ∀ op ∈ processTable e idx, opOk idx op := by
  intro op hop
  unfold processTable at hop
  split at hop
  · cases hop
  · next row0 restRows heq =>
    split at hop
    · cases hop
    · dsimp only at hop
      have hrows := tableRowsOps_opOk (row0 :: restRows) (idx + 3) idx
        (by rw [← heq]; exact tableCellData_rangeOk e) (by omega)
      rcases List.mem_cons.mp hop with rfl | hop
      · exact opOk_not_insert_not_style (by intro i t h; cases h) rfl
      rcases List.mem_append.mp hop with hop | hop
      · exact hrows.1 op hop
      · rcases List.mem_singleton.mp hop with rfl
        exact opOk_insertText (le_trans (by omega) hrows.2)

/-! List opOk lemmas -/

theorem liTrimAdjusted_rangeOk (li : HNode) :
    ∀ r ∈ (buildListItem.liTrimAdjusted li).2, rangeOk r := by
  intro r hr
  unfold buildListItem.liTrimAdjusted at hr
  dsimp only at hr
  split at hr
  · rcases List.mem_map.mp hr with ⟨r0, hr0, rfl⟩
    have := processChildNodes_rangeOk _ r0 hr0
    exact ⟨le_max_left _ _, by rcases this with ⟨h1, h2⟩; simp only [rangeOk]; omega⟩
  · exact processChildNodes_rangeOk _ r hr

theorem buildListItem_rangeOk (li : HNode) (lvl : Nat) :
    ∀ r ∈ (buildListItem li lvl).formatRanges, rangeOk r := by
  intro r hr
  unfold buildListItem at hr
  dsimp only at hr
  split at hr
  · rcases List.mem_map.mp hr with ⟨r0, hr0, rfl⟩
    have := liTrimAdjusted_rangeOk li r0 hr0
    rcases this with ⟨h1, h2⟩
    exact ⟨by simp only [rangeOk]; omega, by simp only [rangeOk]; omega⟩
  · exact liTrimAdjusted_rangeOk li r hr

mutual
theorem processListItemsRecursively_rangeOk : ∀ (e : HNode) (lvl : Nat),
    ∀ item ∈ processListItemsRecursively e lvl, ∀ r ∈ item.formatRanges, rangeOk r
  | .text _, lvl => by simp [processListItemsRecursively]
  | .elem name attrs children, lvl => by
    have ih := listItemsOfChildren_rangeOk children lvl
    unfold processListItemsRecursively
    exact ih
termination_by structural e => e

theorem listItemsOfChildren_rangeOk : ∀ (l : List HNode) (lvl : Nat),
    ∀ item ∈ listItemsOfChildren l lvl, ∀ r ∈ item.formatRanges, rangeOk r
  | [], lvl => by simp [listItemsOfChildren]
  | child :: rest, lvl => by
    have ihrest := listItemsOfChildren_rangeOk rest lvl
    unfold listItemsOfChildren
    intro item hitem
    rcases List.mem_append.mp hitem with hitem | hitem
    · rcases child with _ | ⟨name, attrs, kids⟩
      · cases hitem
      · by_cases hname : name = "LI"
        · subst hname
          have ihnested := nestedListItems_rangeOk kids (lvl + 1)
          simp only at hitem
          rcases List.mem_cons.mp hitem with rfl | hitem
          · exact buildListItem_rangeOk _ lvl
          · exact ihnested item hitem
        · rw [show (match HNode.elem name attrs kids with
              | .elem "LI" attrs2 kids2 =>
                buildListItem (.elem "LI" attrs2 kids2) lvl
                  :: nestedListItems kids2 (lvl + 1)
              | _ => ([] : List ListItemData)) = [] from ?_] at hitem
          · cases hitem
          · cases hn : name <;> simp_all
    · exact ihrest item hitem
termination_by structural l => l

theorem nestedListItems_rangeOk : ∀ (l : List HNode) (lvl : Nat),
    ∀ item ∈ nestedListItems l lvl, ∀ r ∈ item.formatRanges, rangeOk r
  | [], lvl => by simp [nestedListItems]
  | child :: rest, lvl => by
    have ihchild := processListItemsRecursively_rangeOk child lvl
    have ihrest := nestedListItems_rangeOk rest lvl
    unfold nestedListItems
    intro item hitem
    rcases List.mem_append.mp hitem with hitem | hitem
    · split at hitem
      · exact ihchild item hitem
      · cases hitem
    · exact ihrest item hitem
termination_by structural l => l
end

theorem tabs_length (n : Nat) : (tabs n).length = n := by
  simp [tabs, String.length]

theorem totalTabs_shift (items : List ListItemData) :
    ∀ a : Nat, items.foldl (fun total item => total + item.level) a
      = a + totalTabs items := by
  induction items with
  | nil => intro a; simp [totalTabs]
  | cons item rest ih =>
    intro a
    show List.foldl _ (a + item.level) rest = _
    rw [ih]
    show _ = a + List.foldl _ (0 + item.level) rest
    rw [ih]
    omega

theorem totalTabs_cons (item : ListItemData) (rest : List ListItemData) :
    totalTabs (item :: rest) = item.level + totalTabs rest := by
  show List.foldl _ (0 + item.level) rest = _
  rw [totalTabs_shift]
  omega

theorem listInsertAux_ops (items : List ListItemData) :
    ∀ s : Int, (∀ op ∈ (listInsertAux items s).1, opOk s op)
      ∧ s + (totalTabs items : Int) ≤ (listInsertAux items s).2.2 := by
  induction items with
  | nil =>
    intro s
    refine ⟨(fun op hop => nomatch hop), ?_⟩
    show s + ((totalTabs []) : Int) ≤ s
    simp [totalTabs]
  | cons item rest ih =>
    intro s
    unfold listInsertAux
    dsimp only
    have hstep : ((tabs item.level ++ item.text).length : Int)
        = (item.level : Int) + item.text.length := by
      rw [String.length_append, tabs_length]
      push_cast
      omega
    have ihr := ih (s + (tabs item.level ++ item.text).length + 1)
    refine ⟨?_, ?_⟩
    · intro op hop
      rcases List.mem_cons.mp hop with rfl | hop
      · exact opOk_insertText (le_refl _)
      · exact opOk_mono (by omega) (ihr.1 op hop)
    · have := ihr.2
      rw [totalTabs_cons]
      push_cast at this ⊢
      omega

theorem listInsertAux_fds (items : List ListItemData) :
    ∀ s : Int, ∀ fd ∈ (listInsertAux items s).2.1,
      (∃ item ∈ items, fd.range ∈ item.formatRanges)
      ∧ s ≤ fd.itemStartIndex
      ∧ s ≤ fd.itemStartIndex
            - (tabsRemovedBeforeScan items s fd.itemStartIndex : Int) := by
  induction items with
  | nil => intro s fd hfd; exact absurd hfd (by simp [listInsertAux])
  | cons item rest ih =>
    intro s fd hfd
    unfold listInsertAux at hfd
    dsimp only at hfd
    have hstep : ((tabs item.level ++ item.text).length : Int)
        = (item.level : Int) + item.text.length := by
      rw [String.length_append, tabs_length]
      push_cast
      omega
    rcases List.mem_append.mp hfd with hfd | hfd
    · rcases List.mem_map.mp hfd with ⟨r, hr, rfl⟩
      refine ⟨⟨item, by simp, hr⟩, le_refl _, ?_⟩
      unfold tabsRemovedBeforeScan
      rw [if_pos rfl]
      simp
    · have ihfd := ih (s + (tabs item.level ++ item.text).length + 1) fd hfd
      obtain ⟨⟨item2, hitem2, hr2⟩, hge, hscan⟩ := ihfd
      refine ⟨⟨item2, by simp [hitem2], hr2⟩, by omega, ?_⟩
      unfold tabsRemovedBeforeScan
      rw [if_neg (by omega), if_pos (by omega)]
      push_cast at hscan ⊢
      omega

theorem processList_opOk (e : HNode) (idx : Int) (bulletPreset : String) :
    ∀ op ∈ processList e idx bulletPreset, opOk idx op := by
  intro op hop
  unfold processList at hop
  dsimp only at hop
  rcases List.mem_cons.mp hop with rfl | hop
  · exact opOk_insertText (le_refl _)
  rcases List.mem_append.mp hop with hop | hop
  · rcases List.mem_append.mp hop with hop | hop
    · exact opOk_mono (by omega)
        ((listInsertAux_ops (processListItemsRecursively e 0) (idx + 1)).1 op hop)
    · split at hop
      · rcases List.mem_cons.mp hop with rfl | hop
        · exact opOk_not_insert_not_style (by intro i t h; cases h) rfl
        rcases List.mem_filterMap.mp hop with ⟨fd, hfd, heq⟩
        obtain ⟨⟨item, hitem, hr⟩, _, hscan⟩ :=
          listInsertAux_fds (processListItemsRecursively e 0) (idx + 1) fd hfd
        have hrOk : rangeOk fd.range := by
          rcases e with _ | ⟨name, attrs, children⟩
          · exact absurd hitem (by simp [processListItemsRecursively] at hitem ⊢)
          · exact processListItemsRecursively_rangeOk _ 0 item hitem fd.range hr
        exact opOk_createFormatRequest hrOk (by omega) heq
      · cases hop
  · rcases List.mem_singleton.mp hop with rfl
    refine opOk_insertText ?_
    have := (listInsertAux_ops (processListItemsRecursively e 0) (idx + 1)).2
    omega

theorem processHtmlElement_opOk (e : HNode) (idx : Int) :
    ∀ op ∈ processHtmlElement e idx, opOk idx op := by
  intro op hop
  cases e with
  | text s =>
    by_cases ht : jsTrim s = ""
    · rw [show processHtmlElement (.text s) idx = [] from by
        simp [processHtmlElement, ht]] at hop
      cases hop
    · rw [show processHtmlElement (.text s) idx = [.insertText idx (jsTrim s ++ "\n")] from by
        simp [processHtmlElement, ht]] at hop
      rcases List.mem_singleton.mp hop with rfl
      exact opOk_insertText (le_refl _)
  | elem name attrs children =>
    unfold processHtmlElement at hop
    dsimp only at hop
    split at hop
    · exact processHeading_opOk _ _ op hop
    all_goals split at hop
    · exact processParagraph_opOk _ _ op hop
    all_goals split at hop
    · unfold processUnorderedList at hop
      split at hop
      · exact processList_opOk _ _ _ op hop
      · exact processList_opOk _ _ _ op hop
    all_goals split at hop
    · exact processList_opOk _ _ _ op hop
    all_goals split at hop
    · exact processTable_opOk _ _ op hop
    all_goals split at hop
    · exact processBlockquote_opOk _ _ op hop
    all_goals split at hop
    · exact processCodeBlock_opOk _ _ op hop
    all_goals split at hop
    · exact processHorizontalRule_opOk _ op hop
    all_goals split at hop
    · exact processImage_opOk _ _ op hop
    all_goals split at hop
    · rcases List.mem_singleton.mp hop with rfl
      exact opOk_insertText (le_refl _)
    · cases hop

/-- Loop invariant: every operation the element loop emits from index `idx`
satisfies `opOk idx`. -/
theorem processElements_opOk (elements : List HNode) :
    ∀ idx : Int, ∀ op ∈ processElements elements idx, opOk idx op := by
  induction elements with
  | nil => intro idx op hop; cases hop
  | cons e rest ih =>
    intro idx op hop
    unfold processElements at hop
    dsimp only at hop
    split at hop
    · next hlen =>
      rcases List.mem_append.mp hop with hop | hop
      · exact processHtmlElement_opOk e idx op hop
      · have hne : processHtmlElement e idx ≠ [] := by
          intro hc
          rw [hc] at hlen
          simp at hlen
        have hcalc : idx ≤ calculateNewIndex (processHtmlElement e idx) :=
          calculateNewIndex_ge (processHtmlElement_opOk e idx)
            (processHtmlElement_any_insertText e idx hne)
        exact opOk_mono hcalc (ih _ op hop)
    · exact ih idx op hop

/-- C3 (amended): for every parsed input, every emitted `insertText`'s `at`
index is ≥ 1 (the whole conversion starts at index 1, and each block's
insertions sit at or after its own insertion index).  The claim's second
conjunct — consecutive `insertText` ops of one block differing by exactly
the first text's length — does not hold in general: table cells skip fixed
boundary offsets, inline images reserve a slot, and a nested list's trailing
newline is re-stamped after tab removal (see the counterexample). -/
theorem c3_amended (elements : List HNode) (idx : Int) (h : 1 ≤ idx) :
    ∀ p ∈ insertTexts (processElements elements idx), 1 ≤ p.1 := by
  intro p hp
  rcases List.mem_filterMap.mp hp with ⟨op, hop, heq⟩
  have hOk := processElements_opOk elements idx op hop
  cases op with
  | insertText i t =>
    injection heq with heq
    subst heq
    exact le_trans h (hOk.1 i t rfl)
  | _ => simp at heq

/-- C3 amended witness: the amended theorem applied to the 2×1 table
converted from start index 1 — all emitted indices are ≥ 1. -/
theorem c3_amended_witness :
    (1 : Int) ≤ 1
    ∧ (∀ p ∈ insertTexts (processElements [cexTable] 1), 1 ≤ p.1)
    ∧ insertTexts (processElements [cexTable] 1) = [(5, "A"), (9, "B"), (12, "\n")] :=
  ⟨by decide, c3_amended [cexTable] 1 (by decide), by decide⟩

/-- C8 (amended): every emitted style range (`updateTextStyle` and
`updateParagraphStyle`) satisfies `1 ≤ start` (when conversion starts at
index ≥ 1) and `start ≤ end`.  The claim's strict `start < end` fails for
degenerate blocks (an empty heading styles the empty range `[1, 1)`), and
the upper bound `end ≤ finalCursor` fails when a format range covers
trailing whitespace that trimming removed from a list item's inserted text
(see the counterexample). -/
theorem c8_amended (elements : List HNode) (idx : Int) (h : 1 ≤ idx) :
    ∀ op ∈ processElements elements idx, ∀ s e, styleRange op = some (s, e) →
      1 ≤ s ∧ s ≤ e := by
  intro op hop s e hse
  have hOk := (processElements_opOk elements idx op hop).2 s e hse
  exact ⟨le_trans h hOk.1, hOk.2⟩

/-- C8 amended witness: the amended theorem applied to the empty-heading +
trailing-space-list input converted from index 1. -/
theorem c8_amended_witness :
    (1 : Int) ≤ 1
    ∧ (∀ op ∈ processElements [cexEmptyHeading, cexTrailList] 1,
        ∀ s e, styleRange op = some (s, e) → 1 ≤ s ∧ s ≤ e)
    ∧ styleRange (.updateParagraphStyle 1 1 "namedStyleType") = some (1, 1) :=
  ⟨by decide, c8_amended [cexEmptyHeading, cexTrailList] 1 (by decide), rfl⟩

/-! ## C4: table cell addressing -/

theorem createFormatRequest_not_insert {r : FormatRange} {a : Int} {op : GRequest}
    (heq : createFormatRequest r a = some op) : isInsertTextReq op = false := by
  unfold createFormatRequest at heq
  dsimp only at heq
  split at heq <;>
    first
    | (injection heq with heq; subst heq; rfl)
    | (split at heq <;>
        first
        | (injection heq with heq; subst heq; rfl)
        | exact absurd heq (by simp))
    | exact absurd heq (by simp)

theorem insertTexts_filterMap_format (rs : List FormatRange) (a : Int) :
    insertTexts (rs.filterMap (fun r => createFormatRequest r a)) = [] := by
  induction rs with
  | nil => rfl
  | cons r rest ih =>
    rw [List.filterMap_cons]
    rcases heq : createFormatRequest r a with _ | op
    · exact ih
    · have := createFormatRequest_not_insert heq
      cases op <;> simp [isInsertTextReq] at this ⊢ <;>
        simpa [insertTexts] using ih

theorem tableCellOps_insertTexts (cell : CellData) (cci : Int) :
    insertTexts (tableCellOps cell cci).1 = [(cci + 1, cellText cell)]
    ∧ (tableCellOps cell cci).2 = cci + cellAdvance cell := by
  unfold tableCellOps cellText cellAdvance
  dsimp only
  split
  · next hc =>
    constructor
    · have hfmt := insertTexts_filterMap_format cell.formatRanges (cci + 1)
      simp only [insertTexts] at hfmt ⊢
      split <;> simp [List.filterMap_cons, List.filterMap_append, hfmt, hc]
    · omega
  · next hc =>
    simp only [ne_eq, not_not] at hc
    constructor
    · simp [insertTexts, hc]
    · rw [hc]
      simp

theorem rowBoundaries_length (row : List CellData) :
    ∀ b : Int, (rowBoundaries row b).length = row.length := by
  induction row with
  | nil => intro b; rfl
  | cons c rest ih => intro b; simp [rowBoundaries, ih]

theorem tableRowOps_insertTexts (row : List CellData) :
    ∀ b : Int, insertTexts (tableRowOps row b).1
        = (row.zip (rowBoundaries row b)).map (fun p => (p.2 + 1, cellText p.1))
      ∧ (tableRowOps row b).2 = rowEndBoundary row b := by
  induction row with
  | nil => intro b; exact ⟨rfl, rfl⟩
  | cons cell rest ih =>
    intro b
    unfold tableRowOps rowBoundaries rowEndBoundary
    dsimp only
    have hc := tableCellOps_insertTexts cell b
    have hr := ih (tableCellOps cell b).2
    constructor
    · rw [insertTexts_append, hc.1, hr.1, hc.2]
      rfl
    · rw [hr.2, hc.2]

theorem tableRowsOps_insertTexts (rows : List (List CellData)) :
    ∀ b : Int, insertTexts (tableRowsOps rows b).1
        = (rows.flatten.zip (tableBoundaries rows b)).map
            (fun p => (p.2 + 1, cellText p.1)) := by
  induction rows with
  | nil => intro b; rfl
  | cons row rest ih =>
    intro b
    unfold tableRowsOps tableBoundaries
    dsimp only
    have hrow := tableRowOps_insertTexts row b
    rw [insertTexts_append, hrow.1, ih ((tableRowOps row b).2 + 1), hrow.2,
        List.flatten_cons,
        List.zip_append (by rw [rowBoundaries_length]), List.map_append]

/-- C4 (amended): the table converter emits one `insertTable(rows, cols)` at
the insertion index, then visits cells row-major; the cell boundaries follow
the `tableBoundaries` scheme — the very first boundary is the insertion
index + 3, within a row each subsequent boundary advances by the previous
cell's content length + 2, and *at each row end one extra index position is
skipped* — and each cell's text (its content, or a bare newline when empty)
is inserted 1 past its boundary; a trailing newline follows the walk.  The
claim's scheme, which advances every boundary by exactly 2 past the previous
cell's content with no row gap, is refuted by the counterexample. -/
theorem c4_table_cell_addressing (element : HNode) (idx : Int)
    (row0 : List CellData) (restRows : List (List CellData))
    (h : tableCellData element = row0 :: restRows) (h0 : row0.length ≠ 0) :
    processTable element idx
      = .insertTable idx (row0 :: restRows).length row0.length
        :: (tableRowsOps (row0 :: restRows) (idx + 3)).1
        ++ [.insertText (tableRowsOps (row0 :: restRows) (idx + 3)).2 "\n"]
    ∧ insertTexts (tableRowsOps (row0 :: restRows) (idx + 3)).1
      = ((row0 :: restRows).flatten.zip (tableBoundaries (row0 :: restRows) (idx + 3))).map
          (fun p => (p.2 + 1, cellText p.1))
    ∧ (tableBoundaries (row0 :: restRows) (idx + 3)).head? = some (idx + 3) := by
  refine ⟨?_, tableRowsOps_insertTexts _ _, ?_⟩
  · unfold processTable
    rw [h]
    dsimp only
    rw [if_neg h0]
  · unfold tableBoundaries
    rcases row0 with _ | ⟨c, cs⟩
    · simp at h0
    · rfl

/-- C4 amended witness: the theorem at the concrete 2×1 table and index 1;
the computed boundaries are `[4, 8]` (the 8 = 4 + 1 + 2 + the row-gap 1)
and the cell texts land at 5 and 9. -/
theorem c4_table_cell_addressing_witness :
    tableCellData cexTable
      = [ [{ content := "A", formatRanges := [], isHeader := true }],
          [{ content := "B", formatRanges := [], isHeader := false }] ]
    ∧ ([{ content := "A", formatRanges := [], isHeader := true }] : List CellData).length ≠ 0
    ∧ insertTexts (tableRowsOps
        [ [{ content := "A", formatRanges := [], isHeader := true }],
          [{ content := "B", formatRanges := [], isHeader := false }] ] (1 + 3)).1
      = ([ [{ content := "A", formatRanges := [], isHeader := true }],
           [{ content := "B", formatRanges := [], isHeader := false }] ].flatten.zip
          (tableBoundaries
            [ [{ content := "A", formatRanges := [], isHeader := true }],
              [{ content := "B", formatRanges := [], isHeader := false }] ] (1 + 3))).map
          (fun p => (p.2 + 1, cellText p.1)) :=
  ⟨by decide, by decide,
   (c4_table_cell_addressing cexTable 1
      [{ content := "A", formatRanges := [], isHeader := true }]
      [[{ content := "B", formatRanges := [], isHeader := false }]]
      (by decide) (by decide)).2.1⟩

/-! ## C7: translation invariance of the block converters

Every block converter is translation invariant: converting at `idx + d`
yields the requests of converting at `idx` with every offset shifted by `d`.
This is what justifies reading the page-break injector as "shift every
subsequent operation by the break's width". -/

theorem createFormatRequest_shift (r : FormatRange) (a d : Int) :
    createFormatRequest r (a + d) = (createFormatRequest r a).map (shiftReq d) := by
  unfold createFormatRequest
  dsimp only
  split
  · simp only [Option.map_some']
    rw [shiftReq]
    congr 1 <;> ring
  · simp only [Option.map_some']
    rw [shiftReq]
    congr 1 <;> ring
  · simp only [Option.map_some']
    rw [shiftReq]
    congr 1 <;> ring
  · split
    · simp only [Option.map_some']
      rw [shiftReq]
      congr 1 <;> ring
    · rfl
  · rfl

theorem filterMap_format_shift (rs : List FormatRange) (a d : Int) :
    rs.filterMap (fun r => createFormatRequest r (a + d))
      = (rs.filterMap (fun r => createFormatRequest r a)).map (shiftReq d) := by
  rw [List.map_filterMap]
  exact List.filterMap_congr (fun r _ => createFormatRequest_shift r a d)

theorem processHeading_shift (e : HNode) (idx d : Int) :
    processHeading e (idx + d) = (processHeading e idx).map (shiftReq d) := by
  unfold processHeading
  simp [shiftReq] <;> omega

theorem processCodeBlock_shift (e : HNode) (idx d : Int) :
    processCodeBlock e (idx + d) = (processCodeBlock e idx).map (shiftReq d) := by
  unfold processCodeBlock
  simp [shiftReq] <;> omega

theorem processHorizontalRule_shift (idx d : Int) :
    processHorizontalRule (idx + d) = (processHorizontalRule idx).map (shiftReq d) := by
  unfold processHorizontalRule
  simp [shiftReq] <;> omega

theorem processBlockquote_shift (e : HNode) (idx d : Int) :
    processBlockquote e (idx + d) = (processBlockquote e idx).map (shiftReq d) := by
  unfold processBlockquote
  split <;> simp [shiftReq, filterMap_format_shift] <;> omega

theorem processImageFallback_shift (alt src : String) (idx d : Int) :
    processImageFallback alt src (idx + d)
      = (processImageFallback alt src idx).map (shiftReq d) := by
  unfold processImageFallback
  dsimp only
  split
  · next hs =>
    have hns : ¬("\nSource: " ++ src = "") := by
      intro hc
      have hlen := congrArg String.length hc
      rw [String.length_append] at hlen
      have h9 : ("\nSource: ").length = 9 := rfl
      have h0 : ("" : String).length = 0 := rfl
      omega
    simp [shiftReq, hns] <;> and_intros <;> ring_nf
  · simp [shiftReq] <;> and_intros <;> ring_nf

theorem processImage_shift (e : HNode) (idx d : Int) :
    processImage e (idx + d) = (processImage e idx).map (shiftReq d) := by
  unfold processImage
  dsimp only
  split
  · exact processImageFallback_shift _ _ idx d
  split
  · exact processImageFallback_shift _ _ idx d
  · simp [shiftReq] <;> omega

theorem isInsertTextReq_shift (d : Int) (op : GRequest) :
    isInsertTextReq (shiftReq d op) = isInsertTextReq op := by
  cases op <;> rfl

theorem calculateNewIndex_shift {rs : List GRequest} (d : Int)
    (hne : rs.any isInsertTextReq = true) :
    calculateNewIndex (rs.map (shiftReq d)) = calculateNewIndex rs + d := by
  unfold calculateNewIndex
  have hfilter : (rs.map (shiftReq d)).filter isInsertTextReq
      = (rs.filter isInsertTextReq).map (shiftReq d) := by
    rw [List.filter_map]
    congr 1
    exact List.filter_congr (fun op _ => isInsertTextReq_shift d op)
  rw [hfilter, List.getLast?_map]
  rcases hlast : (rs.filter isInsertTextReq).getLast? with _ | r
  · rcases List.any_eq_true.mp hne with ⟨op, hmem, hop⟩
    have hf : op ∈ rs.filter isInsertTextReq := List.mem_filter.mpr ⟨hmem, hop⟩
    have hnil : rs.filter isInsertTextReq = [] := List.getLast?_eq_none_iff.mp hlast
    rw [hnil] at hf
    cases hf
  · have hmem : r ∈ rs.filter isInsertTextReq := by
      have hx : r ∈ (rs.filter isInsertTextReq).getLast? := by rw [hlast]; rfl
      obtain ⟨hne2, rfl⟩ := List.mem_getLast?_eq_getLast hx
      exact List.getLast_mem hne2
    have hr : isInsertTextReq r = true := List.of_mem_filter hmem
    cases r with
    | insertText i t =>
      show (i + d) + (t.length : Int) = i + t.length + d
      ring
    | _ => simp [isInsertTextReq] at hr

theorem mixedAux_shift (children : List HNode) :
    ∀ (idx d : Int),
      (mixedAux children (idx + d)).1 = (mixedAux children idx).1.map (shiftReq d)
      ∧ (mixedAux children (idx + d)).2 = (mixedAux children idx).2 + d := by
  induction children with
  | nil => intro idx d; exact ⟨rfl, rfl⟩
  | cons child rest ih =>
    intro idx d
    unfold mixedAux
    cases child with
    | text s =>
      dsimp only
      split
      · have := ih (idx + s.length) d
        rw [show idx + d + (s.length : Int) = idx + s.length + d by ring] at *
        simp [shiftReq, this.1, this.2]
      · exact ih idx d
    | elem name attrs kids =>
      dsimp only
      split
      · have himg := processImage_shift (.elem name attrs kids) idx d
        have hany := processImage_any_insertText (.elem name attrs kids) idx
        have hcalc := calculateNewIndex_shift d hany
        have := ih (calculateNewIndex (processImage (.elem name attrs kids) idx)) d
        rw [himg, hcalc] at *
        simp [this.1, this.2]
      split
      · split
        · have := ih (idx + (processChildNodes (HNode.elem name attrs kids).childNodes 0).1.length) d
          rw [show idx + d + ((processChildNodes (HNode.elem name attrs kids).childNodes 0).1.length : Int)
              = idx + (processChildNodes (HNode.elem name attrs kids).childNodes 0).1.length + d
              by ring] at *
          simp [shiftReq, this.1, this.2, filterMap_format_shift]
        · exact ih idx d
      · split
        · have := ih (idx + (HNode.elem name attrs kids).textContent.length) d
          rw [show idx + d + ((HNode.elem name attrs kids).textContent.length : Int)
              = idx + (HNode.elem name attrs kids).textContent.length + d by ring] at *
          simp [shiftReq, this.1, this.2]
        · exact ih idx d

theorem processMixedContent_shift (e : HNode) (idx d : Int) :
    processMixedContent e (idx + d) = (processMixedContent e idx).map (shiftReq d) := by
  unfold processMixedContent
  have := mixedAux_shift e.childNodes idx d
  simp [this.1, this.2, shiftReq]

theorem processParagraphWithInlineFormatting_shift (e : HNode) (idx d : Int) :
    processParagraphWithInlineFormatting e (idx + d)
      = (processParagraphWithInlineFormatting e idx).map (shiftReq d) := by
  unfold processParagraphWithInlineFormatting
  split
  · exact processMixedContent_shift e idx d
  · simp [shiftReq, filterMap_format_shift]

theorem processParagraph_shift (e : HNode) (idx d : Int) :
    processParagraph e (idx + d) = (processParagraph e idx).map (shiftReq d) := by
  unfold processParagraph
  split
  · exact processParagraphWithInlineFormatting_shift e idx d
  · dsimp only
    split <;> simp [shiftReq]

theorem tabsRemovedBeforeScan_shift (items : List ListItemData) :
    ∀ (s t d : Int), tabsRemovedBeforeScan items (s + d) (t + d)
      = tabsRemovedBeforeScan items s t := by
  induction items with
  | nil => intro s t d; rfl
  | cons item rest ih =>
    intro s t d
    unfold tabsRemovedBeforeScan
    by_cases h1 : s = t
    · rw [if_pos (by omega), if_pos h1]
    · rw [if_neg (by omega), if_neg h1]
      by_cases h2 : s < t
      · rw [if_pos (by omega), if_pos h2]
        rw [show s + d + ((tabs item.level ++ item.text).length : Int) + 1
            = (s + (tabs item.level ++ item.text).length + 1) + d by ring]
        rw [ih]
      · rw [if_neg (by omega), if_neg h2]
        rw [show s + d + ((tabs item.level ++ item.text).length : Int) + 1
            = (s + (tabs item.level ++ item.text).length + 1) + d by ring]
        rw [ih]

theorem listInsertAux_shift (items : List ListItemData) :
    ∀ (s d : Int),
      (listInsertAux items (s + d)).1 = (listInsertAux items s).1.map (shiftReq d)
      ∧ (listInsertAux items (s + d)).2.1
        = (listInsertAux items s).2.1.map
            (fun fd => { fd with itemStartIndex := fd.itemStartIndex + d })
      ∧ (listInsertAux items (s + d)).2.2 = (listInsertAux items s).2.2 + d := by
  induction items with
  | nil => intro s d; exact ⟨rfl, rfl, rfl⟩
  | cons item rest ih =>
    intro s d
    unfold listInsertAux
    dsimp only
    have hthis := ih (s + (tabs item.level ++ item.text).length + 1) d
    rw [show s + d + ((tabs item.level ++ item.text).length : Int) + 1
        = s + (tabs item.level ++ item.text).length + 1 + d by ring]
    refine ⟨?_, ?_, hthis.2.2⟩
    · simp only [List.map_cons]
      rw [hthis.1]
      rfl
    · simp only [List.map_append, List.map_map]
      rw [hthis.2.1]
      rfl

theorem processList_shift (e : HNode) (idx d : Int) (p : String) :
    processList e (idx + d) p = (processList e idx p).map (shiftReq d) := by
  unfold processList
  dsimp only
  have hins := listInsertAux_shift (processListItemsRecursively e 0) (idx + 1) d
  rw [show idx + d + 1 = idx + 1 + d by ring]
  rw [hins.1, hins.2.1, hins.2.2]
  simp only [List.map_cons, List.map_append, List.map_nil]
  congr 1
  congr 1
  congr 1
  · split
    · simp only [List.map_cons]
      congr 1
      · show GRequest.createParagraphBullets _ _ _ = GRequest.createParagraphBullets _ _ _
        congr 1
        ring
      · rw [List.filterMap_map, List.map_filterMap]
        refine List.filterMap_congr (fun fd _ => ?_)
        simp only [Function.comp_apply]
        rw [show fd.itemStartIndex + d
              - (tabsRemovedBeforeScan (processListItemsRecursively e 0) (idx + 1 + d)
                  (fd.itemStartIndex + d) : Int)
            = fd.itemStartIndex + d
              - (tabsRemovedBeforeScan (processListItemsRecursively e 0) (idx + 1)
                  fd.itemStartIndex : Int) from by
          rw [tabsRemovedBeforeScan_shift]]
        rw [show fd.itemStartIndex + d
              - (tabsRemovedBeforeScan (processListItemsRecursively e 0) (idx + 1)
                  fd.itemStartIndex : Int)
            = fd.itemStartIndex
              - (tabsRemovedBeforeScan (processListItemsRecursively e 0) (idx + 1)
                  fd.itemStartIndex : Int) + d by ring]
        exact createFormatRequest_shift _ _ d
    · rfl
  · show [GRequest.insertText _ "\n"] = [GRequest.insertText _ "\n"]
    congr 2
    ring

theorem tableCellOps_shift (cell : CellData) (cci d : Int) :
    (tableCellOps cell (cci + d)).1 = (tableCellOps cell cci).1.map (shiftReq d)
    ∧ (tableCellOps cell (cci + d)).2 = (tableCellOps cell cci).2 + d := by
  unfold tableCellOps
  dsimp only
  rw [show cci + d + 1 = cci + 1 + d by ring]
  split
  · constructor
    · simp only [List.map_cons, List.map_append, shiftReq, filterMap_format_shift]
      congr 1
      congr 1
      split <;> simp [shiftReq] <;> and_intros <;> ring_nf
    · ring
  · exact ⟨rfl, by ring⟩

theorem tableRowOps_shift (row : List CellData) :
    ∀ (cci d : Int),
      (tableRowOps row (cci + d)).1 = (tableRowOps row cci).1.map (shiftReq d)
      ∧ (tableRowOps row (cci + d)).2 = (tableRowOps row cci).2 + d := by
  induction row with
  | nil => intro cci d; exact ⟨rfl, rfl⟩
  | cons cell rest ih =>
    intro cci d
    unfold tableRowOps
    dsimp only
    have hc := tableCellOps_shift cell cci d
    rw [hc.1, hc.2]
    have hr := ih (tableCellOps cell cci).2 d
    rw [hr.1, hr.2]
    simp [List.map_append]

theorem tableRowsOps_shift (rows : List (List CellData)) :
    ∀ (cci d : Int),
      (tableRowsOps rows (cci + d)).1 = (tableRowsOps rows cci).1.map (shiftReq d)
      ∧ (tableRowsOps rows (cci + d)).2 = (tableRowsOps rows cci).2 + d := by
  induction rows with
  | nil => intro cci d; exact ⟨rfl, rfl⟩
  | cons row rest ih =>
    intro cci d
    unfold tableRowsOps
    dsimp only
    have hrow := tableRowOps_shift row cci d
    rw [hrow.1, hrow.2]
    rw [show (tableRowOps row cci).2 + d + 1 = (tableRowOps row cci).2 + 1 + d by ring]
    have hrest := ih ((tableRowOps row cci).2 + 1) d
    rw [hrest.1, hrest.2]
    simp [List.map_append]

theorem processTable_shift (e : HNode) (idx d : Int) :
    processTable e (idx + d) = (processTable e idx).map (shiftReq d) := by
  unfold processTable
  rcases tableCellData e with _ | ⟨row0, restRows⟩
  · rfl
  · dsimp only
    split
    · rfl
    · rw [show idx + d + 3 = idx + 3 + d by ring]
      have := tableRowsOps_shift (row0 :: restRows) (idx + 3) d
      rw [this.1, this.2]
      simp [shiftReq]

theorem processHtmlElement_shift (e : HNode) (idx d : Int) :
    processHtmlElement e (idx + d) = (processHtmlElement e idx).map (shiftReq d) := by
  cases e with
  | text s =>
    by_cases ht : jsTrim s = ""
    · rw [show processHtmlElement (.text s) (idx + d) = [] from by
          simp [processHtmlElement, ht],
        show processHtmlElement (.text s) idx = [] from by
          simp [processHtmlElement, ht]]
      rfl
    · rw [show processHtmlElement (.text s) (idx + d)
            = [.insertText (idx + d) (jsTrim s ++ "\n")] from by
          simp [processHtmlElement, ht],
        show processHtmlElement (.text s) idx
            = [.insertText idx (jsTrim s ++ "\n")] from by
          simp [processHtmlElement, ht]]
      rfl
  | elem name attrs children =>
    unfold processHtmlElement
    dsimp only
    by_cases h1 : (name = "H1" || name = "H2" || name = "H3" || name = "H4"
        || name = "H5" || name = "H6") = true
    · simp only [if_pos h1]
      exact processHeading_shift _ idx d
    simp only [if_neg h1]
    by_cases h2 : name = "P"
    · simp only [if_pos h2]
      exact processParagraph_shift _ idx d
    simp only [if_neg h2]
    by_cases h3 : name = "UL"
    · simp only [if_pos h3]
      unfold processUnorderedList
      split
      · exact processList_shift _ idx d _
      · exact processList_shift _ idx d _
    simp only [if_neg h3]
    by_cases h4 : name = "OL"
    · simp only [if_pos h4]
      exact processList_shift _ idx d _
    simp only [if_neg h4]
    by_cases h5 : name = "TABLE"
    · simp only [if_pos h5]
      exact processTable_shift _ idx d
    simp only [if_neg h5]
    by_cases h6 : name = "BLOCKQUOTE"
    · simp only [if_pos h6]
      exact processBlockquote_shift _ idx d
    simp only [if_neg h6]
    by_cases h7 : name = "PRE"
    · simp only [if_pos h7]
      exact processCodeBlock_shift _ idx d
    simp only [if_neg h7]
    by_cases h8 : name = "HR"
    · simp only [if_pos h8]
      exact processHorizontalRule_shift idx d
    simp only [if_neg h8]
    by_cases h9 : name = "IMG"
    · simp only [if_pos h9]
      exact processImage_shift _ idx d
    simp only [if_neg h9]
    by_cases h10 : jsTrim (HNode.elem name attrs children).textContent ≠ ""
    · simp only [if_pos h10]
      rfl
    · simp only [if_neg h10]
      rfl

/-- Heading blocks (any node named `H1`…`H6`) always emit an `insertText`. -/
theorem heading_any_insertText (tag : String) (htag : tag = "H1" ∨ tag = "H2") :
    ∀ (e : HNode) (i : Int), e.nodeName = tag →
      (processHtmlElement e i).any isInsertTextReq = true := by
  intro e i hname
  cases e with
  | text s =>
    rcases htag with rfl | rfl <;> simp [HNode.nodeName] at hname
  | elem name attrs children =>
    have hn : name = tag := hname
    subst hn
    unfold processHtmlElement
    dsimp only
    rcases htag with rfl | rfl <;>
      · rw [if_pos (by simp)]
        simp [processHeading, isInsertTextReq]

/-- The spec-modelled injector pass, characterized against the break-free
conversion via translation invariance. -/
theorem injectPageBreaksAux_eq_splicedSpec (tgt : String) (ef : Bool)
    (htgt : ∀ (e : HNode) (i : Int), e.nodeName = tgt →
        (processHtmlElement e i).any isInsertTextReq = true)
    (elements : List HNode) :
    ∀ (idx shift : Int) (seen : Bool),
      injectPageBreaksAux tgt ef elements (idx + shift) seen
        = splicedSpec tgt ef elements idx seen shift := by
  induction elements with
  | nil => intro idx shift seen; rfl
  | cons e rest ih =>
    intro idx shift seen
    unfold injectPageBreaksAux splicedSpec
    dsimp only
    by_cases hfire : (e.nodeName == tgt && (!ef || seen)) = true
    · simp only [if_pos hfire]
      have htarget : e.nodeName = tgt := by
        have := (Bool.and_eq_true _ _).mp hfire
        exact eq_of_beq this.1
      have hshift : processHtmlElement e (idx + shift + 2)
          = (processHtmlElement e idx).map (shiftReq (shift + 2)) := by
        rw [show idx + shift + 2 = idx + (shift + 2) by ring]
        exact processHtmlElement_shift e idx (shift + 2)
      rw [hshift]
      have hany := htgt e idx htarget
      rw [calculateNewIndex_shift (shift + 2) hany]
      rw [ih (calculateNewIndex (processHtmlElement e idx)) (shift + 2) true]
    · simp only [if_neg hfire]
      rw [processHtmlElement_shift e idx shift]
      by_cases hlen : (processHtmlElement e idx).length > 0
      · rw [if_pos (by simpa using hlen), if_pos hlen]
        have hne : processHtmlElement e idx ≠ [] := by
          intro hc
          rw [hc] at hlen
          simp at hlen
        have hany := processHtmlElement_any_insertText e idx hne
        rw [calculateNewIndex_shift shift hany]
        rw [ih (calculateNewIndex (processHtmlElement e idx)) shift
            (seen || (e.nodeName == tgt))]
      · rw [if_neg (by simpa using hlen), if_neg hlen]
        exact ih idx shift (seen || (e.nodeName == tgt))

/-- C7: with page-break strategy `"h1"`, the conversion walks the parsed
block sequence and splices an `insertPageBreak` immediately before the
requests of every `H1` block except the first — the break sits at the
heading's (shift-adjusted) insertion index, directly before the heading's
own `insertText` — and every subsequent operation is shifted by the break's
fixed width of 2 index positions (each block's requests equal its break-free
requests shifted by 2 per break spliced before it); strategy `"h2"` does the
same before every `H2`.  (`splicedSpec` is this claim's reading, spelled
against the break-free converter; the injector itself, absent from src/, is
modelled from the spec.) -/
theorem c7_page_break_injection (elements : List HNode) (startIndex : Int) :
    injectPageBreaks "h1" elements startIndex
      = splicedSpec "H1" true elements startIndex false 0
    ∧ injectPageBreaks "h2" elements startIndex
      = splicedSpec "H2" false elements startIndex false 0 := by
  constructor
  · show injectPageBreaksAux "H1" true elements startIndex false = _
    have h := injectPageBreaksAux_eq_splicedSpec "H1" true
      (heading_any_insertText "H1" (Or.inl rfl)) elements startIndex 0 false
    rwa [show startIndex + 0 = startIndex by ring] at h
  · show injectPageBreaksAux "H2" false elements startIndex false = _
    have h := injectPageBreaksAux_eq_splicedSpec "H2" false
      (heading_any_insertText "H2" (Or.inr rfl)) elements startIndex 0 false
    rwa [show startIndex + 0 = startIndex by ring] at h

end MdToDocs
